import Mathlib

/-!
Verification development for `read_frame.cpp`.

A shallow embedding of the video-to-ASS converter: the colour triple `RGB`, the raster
`Frame`, the forward-only `VideoReader` and the conversion loop of `main`, followed by
theorems about them.

Conventions of the embedding:
* C++ `int` is `Int` (signed overflow is undefined behaviour in C++ and is not modelled),
  `uint8_t` is a `Nat` below 256, `double` times are exact rationals `ℚ`;
* `std::string` is `String`, `std::vector<RGB>` is `List RGB`; reading a vector outside its
  size has no defined result and is `none`;
* the demuxer/decoder is a finite list of coded units (`Packet`), each of which records what
  the library calls answer for it.
-/

namespace ReadFrame

/-! ## Text formatting primitives (`printf` / `iostream`) -/

/-- Left-pad a character list with `c` up to width `w` (the default right adjustment of
`setw`/`%0Nd`: wider text is left unchanged). -/
def padLeft (w : Nat) (c : Char) (s : List Char) : List Char :=
  List.replicate (w - s.length) c ++ s

/-- The `printf` conversion `%02X`: uppercase hexadecimal, zero-padded to at least 2 digits. -/
def fmt02X (n : Nat) : List Char :=
  padLeft 2 '0' ((Nat.toDigits 16 n).map Char.toUpper)

/-- One uppercase hexadecimal digit, as the specification describes the colour text. -/
def hexDigit (d : Nat) : Char :=
  "0123456789ABCDEF".data.getD d '?'

/-- The two-digit uppercase hexadecimal text of an 8-bit value, as the specification
describes it: high nibble, then low nibble. -/
def hex2 (n : Nat) : List Char :=
  [hexDigit (n / 16), hexDigit (n % 16)]

/-! ## `struct RGB` -/

/-- The colour triple `struct RGB { uint8_t r, g, b; }`. -/
structure RGB where
  r : Nat
  g : Nat
  b : Nat
  deriving DecidableEq, Repr

/-- All three components fit `uint8_t`. -/
def RGB.is8bit (c : RGB) : Prop :=
  c.r < 256 ∧ c.g < 256 ∧ c.b < 256

instance (c : RGB) : Decidable c.is8bit := by
  unfold RGB.is8bit; infer_instance

/-- `RGB::to_ass`: `snprintf(buf, 16, "&H%02X%02X%02X&", b, g, r)`; at most
`sizeof(buf) - 1 = 15` characters are stored. -/
def RGB.to_ass (c : RGB) : String :=
  String.mk ((['&', 'H'] ++ fmt02X c.b ++ fmt02X c.g ++ fmt02X c.r ++ ['&']).take 15)

/-! ## `class Frame` -/

/-- The raster `class Frame { std::vector<RGB> pixels; int width, height; }`. -/
structure Frame where
  pixels : List RGB
  width : Int
  height : Int
  deriving DecidableEq, Repr

/-- `Frame::get_pixel`: black outside the canvas, otherwise the vector element
`pixels[y * width + x]` (`none` when that read is outside the vector). -/
def Frame.get_pixel (f : Frame) (x y : Int) : Option RGB :=
  if x < 0 ∨ x ≥ f.width ∨ y < 0 ∨ y ≥ f.height then
    some ⟨0, 0, 0⟩
  else
    f.pixels[(y * f.width + x).toNat]?

/-! ## The decode service seen by `class VideoReader` -/

/-- One coded unit delivered by `av_read_frame`, together with what the library answers for
it: the track it belongs to, the results of `avcodec_send_packet` and
`avcodec_receive_frame`, and the bytes `sws_scale` leaves in `rgb_frame->data[0]` when a
picture is produced. -/
structure Packet where
  stream_index : Int
  send_ret : Int
  receive_ret : Int
  rgb : Nat → Nat

/-- The members of `class VideoReader` that `get_frame` depends on: `packets` and `pos` are
the demuxer handle `fmt_ctx` (contents of the file and how many units have been read since
the last seek), `is_open` is `fmt_ctx != nullptr && codec_ctx != nullptr`, `linesize` is
`rgb_frame->linesize[0]`. The counters `seeks` and `decodes` are observers: how often
`seek_to_start` ran and how often `decode_next_frame` returned `true`. -/
structure VideoReader where
  packets : List Packet
  pos : Nat
  is_open : Bool
  video_stream_idx : Int
  current_frame_num : Int
  width : Int
  height : Int
  linesize : Nat
  seeks : Nat
  decodes : Nat

/-- The pixel that the copy loop stores for column `x` of row `y`:
`row = data + y * linesize`, components `row[x*3+0]`, `row[x*3+1]`, `row[x*3+2]`
(each a `uint8_t`). -/
def rgb_at (data : Nat → Nat) (linesize : Nat) (y x : Nat) : RGB :=
  ⟨data (y * linesize + (x * 3 + 0)) % 256,
   data (y * linesize + (x * 3 + 1)) % 256,
   data (y * linesize + (x * 3 + 2)) % 256⟩

/-- Inner copy loop `for (int x = 0; x < frame.width; x++)` for one row `y`:
`frame.pixels[y * frame.width + x] = row[x*3 ..]`. -/
def copy_row (width : Int) (data : Nat → Nat) (linesize : Nat) (y : Nat)
    (pixels : List RGB) : List RGB :=
  (List.range width.toNat).foldl
    (fun px x => px.set (y * width.toNat + x) (rgb_at data linesize y x)) pixels

/-- Outer copy loop `for (int y = 0; y < frame.height; y++)` of `decode_next_frame`. -/
def copy_to_vector (frame : Frame) (data : Nat → Nat) (linesize : Nat) : Frame :=
  { frame with
    pixels := (List.range frame.height.toNat).foldl
      (fun px y => copy_row frame.width data linesize y px) frame.pixels }

/-- A coded unit produces a picture: it belongs to the video track, was accepted by
`avcodec_send_packet` and `avcodec_receive_frame` returned a frame. -/
def Packet.yields (video_stream_idx : Int) (p : Packet) : Bool :=
  decide (p.stream_index = video_stream_idx) && decide (p.send_ret ≥ 0)
    && decide (p.receive_ret ≥ 0)

/-- The loop `while (av_read_frame(fmt_ctx, packet) >= 0)` of `decode_next_frame`, run over
the units that `av_read_frame` has not delivered yet. -/
def VideoReader.decode_next_frame_from (r : VideoReader) (frame : Frame) :
    List Packet → Bool × VideoReader × Frame
  | [] => (false, r, frame)
  | p :: rest =>
    let r1 := { r with pos := r.pos + 1 }
    if p.stream_index = r.video_stream_idx then
      if p.send_ret ≥ 0 then
        if p.receive_ret ≥ 0 then
          (true,
           { r1 with current_frame_num := r1.current_frame_num + 1,
                     decodes := r1.decodes + 1 },
           copy_to_vector frame p.rgb r.linesize)
        else r1.decode_next_frame_from frame rest
      else r1.decode_next_frame_from frame rest
    else r1.decode_next_frame_from frame rest

/-- `VideoReader::decode_next_frame`. -/
def VideoReader.decode_next_frame (r : VideoReader) (frame : Frame) :
    Bool × VideoReader × Frame :=
  r.decode_next_frame_from frame (r.packets.drop r.pos)

/-- `VideoReader::seek_to_start`: reposition the demuxer at the first unit, flush the
decoder, reset the frame counter. -/
def VideoReader.seek_to_start (r : VideoReader) : VideoReader :=
  { r with pos := 0, current_frame_num := 0, seeks := r.seeks + 1 }

/-- The loop `while (current_frame_num <= frame_num)` of `get_frame`; `fuel` bounds the
number of iterations. -/
def VideoReader.get_frame_loop : Nat → VideoReader → Frame → Int → Frame × VideoReader
  | 0, r, frame, _ => (frame, r)
  | fuel + 1, r, frame, frame_num =>
    if r.current_frame_num ≤ frame_num then
      match r.decode_next_frame frame with
      | (true, r1, frame1) => VideoReader.get_frame_loop fuel r1 frame1 frame_num
      | (false, r1, frame1) => ({ frame1 with pixels := [] }, r1)
    else (frame, r)

/-- `VideoReader::get_frame`: the returned frame and the reader afterwards. Every successful
iteration of the loop raises `current_frame_num` by one, so the loop runs at most
`frame_num + 1 - current_frame_num` times. -/
def VideoReader.get_frame (r : VideoReader) (frame_num : Int) : Frame × VideoReader :=
  let frame : Frame :=
    { pixels := List.replicate (r.width * r.height).toNat ⟨0, 0, 0⟩,
      width := r.width, height := r.height }
  if !r.is_open then (frame, r)
  else
    let r1 := if frame_num < r.current_frame_num then r.seek_to_start else r
    r1.get_frame_loop (frame_num + 1 - r1.current_frame_num).toNat frame frame_num

/-- `VideoReader::get_current_frame_num`. -/
def VideoReader.get_current_frame_num (r : VideoReader) : Int :=
  r.current_frame_num - 1

/-- A reader as the constructor leaves it when every step succeeds: positioned at the first
coded unit, frame counter 0, `width` and `height` the picture dimensions of the codec
context (natural numbers). -/
def VideoReader.fresh (packets : List Packet) (video_stream_idx : Int) (width height : Nat)
    (linesize : Nat) : VideoReader :=
  { packets := packets, pos := 0, is_open := true, video_stream_idx := video_stream_idx,
    current_frame_num := 0, width := (width : Int), height := (height : Int),
    linesize := linesize, seeks := 0, decodes := 0 }

/-- The states a reader passes through: the state after construction and every state after
a further `get_frame` call. -/
inductive VideoReader.Reachable (r0 : VideoReader) : VideoReader → Prop
  | start : VideoReader.Reachable r0 r0
  | call {r : VideoReader} (n : Int) :
      VideoReader.Reachable r0 r → VideoReader.Reachable r0 (r.get_frame n).2

/-- Issue a sequence of `get_frame` requests; the frames returned, call for call, and the
final reader. -/
def VideoReader.run (r : VideoReader) : List Int → List Frame × VideoReader
  | [] => ([], r)
  | n :: ns =>
    let (frame, r1) := r.get_frame n
    let (frames, r2) := VideoReader.run r1 ns
    (frame :: frames, r2)

/-- The coded units of the stream that produce a picture, in stream order. -/
def VideoReader.decodable (r : VideoReader) : List Packet :=
  r.packets.filter (Packet.yields r.video_stream_idx)

/-- The conversion of a decoded picture to a `width * height` vector of RGB triples:
element `y * width + x` is the triple read from row `y`, column `x`. -/
def convert (width height : Int) (data : Nat → Nat) (linesize : Nat) : List RGB :=
  (List.range (width * height).toNat).map
    (fun i => rgb_at data linesize (i / width.toNat) (i % width.toNat))

/-- The pixels of the `n`-th (0-based) picture-producing unit of the stream after
conversion, if the stream has that many. -/
def VideoReader.frame_at (r : VideoReader) (n : Nat) : Option (List RGB) :=
  (r.decodable[n]?).map fun p => convert r.width r.height p.rgb r.linesize

/-- The invariant of the reader: the units read since the last seek are a prefix of the
stream, and the frame counter is the number of picture-producing units among them. -/
def VideoReader.Inv (r : VideoReader) : Prop :=
  ∃ pre rest : List Packet, r.packets = pre ++ rest ∧ r.pos = pre.length ∧
    r.current_frame_num = ((pre.filter (Packet.yields r.video_stream_idx)).length : Int)

/-- Two reader states on the same open stream: everything the constructor fixed agrees. -/
def VideoReader.same_stream (r r1 : VideoReader) : Prop :=
  r1.packets = r.packets ∧ r1.is_open = r.is_open ∧
    r1.video_stream_idx = r.video_stream_idx ∧ r1.width = r.width ∧ r1.height = r.height ∧
    r1.linesize = r.linesize

/-- The reader state without its two observer counters. -/
def VideoReader.forget (r : VideoReader) : VideoReader :=
  { r with seeks := 0, decodes := 0 }

/-! ## Sample streams -/

/-- A coded unit of track 0 that produces a picture whose bytes count up from `10 * k`. -/
def sample_packet (k : Nat) : Packet :=
  ⟨0, 0, 0, fun i => k * 10 + i⟩

/-- A coded unit of another track (audio, say). -/
def sample_other : Packet :=
  ⟨1, 0, 0, fun _ => 7⟩

/-- A reader on a stream of five coded units, three of which produce a 2 x 2 picture. -/
def sample_reader : VideoReader :=
  VideoReader.fresh [sample_other, sample_packet 1, sample_other, sample_packet 2,
    sample_packet 3] 0 2 2 6

/-- A reader on a stream of two pictures of 40 x 40 pixels. -/
def sample_square_reader : VideoReader :=
  VideoReader.fresh [sample_packet 1, sample_packet 2] 0 40 40 120

/-- A reader on a stream of three coded units, two of which produce a 2 x 2 picture. -/
def sample_pair_reader : VideoReader :=
  VideoReader.fresh [sample_packet 1, sample_other, sample_packet 2] 0 2 2 6

/-- A reader on a stream of three picture-producing units whose codec context reports a
picture of width 0 and height 0. -/
def sample_flat_reader : VideoReader :=
  VideoReader.fresh [sample_packet 1, sample_packet 2, sample_packet 3] 0 0 0 0

/-! ## `format_time` -/

/-- The number denoted by a list of decimal digit characters (most significant first). -/
def digits_value (l : List Char) : Nat :=
  l.foldl (fun acc c => 10 * acc + (c.toNat - 48)) 0

/-- The conversion `static_cast<int>(double)`: truncation toward zero. -/
def trunc (q : ℚ) : Int :=
  if 0 ≤ q then ⌊q⌋ else ⌈q⌉

/-- The stream insertion `ss << std::setfill('0') << std::setw(w) << i` of an `int`. -/
def put_int (w : Nat) (i : Int) : List Char :=
  padLeft w '0' (toString i).data

/-- The lambda `format_time` of `main`. -/
def format_time (seconds : ℚ) : String :=
  let h := trunc (seconds / 3600)
  let seconds := seconds - ((h * 3600 : Int) : ℚ)
  let m := trunc (seconds / 60)
  let seconds := seconds - ((m * 60 : Int) : ℚ)
  let s := trunc seconds
  let cs := trunc ((seconds - (s : ℚ)) * 100)
  String.mk (put_int 1 h ++ [':'] ++ put_int 2 m ++ [':'] ++ put_int 2 s ++ ['.']
    ++ put_int 2 cs)

/-- The four `int` fields `h`, `m`, `s`, `cs` that the lambda `format_time` computes before
printing them. -/
def time_fields (seconds : ℚ) : Int × Int × Int × Int :=
  let h := trunc (seconds / 3600)
  let seconds := seconds - ((h * 3600 : Int) : ℚ)
  let m := trunc (seconds / 60)
  let seconds := seconds - ((m * 60 : Int) : ℚ)
  let s := trunc seconds
  let cs := trunc ((seconds - (s : ℚ)) * 100)
  (h, m, s, cs)

/-- The lexicographic order on field tuples `(H, MM, SS, CC)`. -/
def fields_le (a b : Int × Int × Int × Int) : Prop :=
  a.1 < b.1 ∨ (a.1 = b.1 ∧ (a.2.1 < b.2.1 ∨ (a.2.1 = b.2.1 ∧
    (a.2.2.1 < b.2.2.1 ∨ (a.2.2.1 = b.2.2.1 ∧ a.2.2.2 ≤ b.2.2.2)))))

instance (a b : Int × Int × Int × Int) : Decidable (fields_le a b) := by
  unfold fields_le; infer_instance

/-- The text `H:MM:SS.CC` built from four field values as the specification describes it:
`H` in plain decimal, the other three as exactly two decimal digits. -/
def time_text (H MM SS CC : Nat) : String :=
  String.mk ((Nat.repr H).data ++ [':'] ++ [Nat.digitChar (MM / 10), Nat.digitChar (MM % 10)]
    ++ [':'] ++ [Nat.digitChar (SS / 10), Nat.digitChar (SS % 10)] ++ ['.']
    ++ [Nat.digitChar (CC / 10), Nat.digitChar (CC % 10)])

/-! ## The conversion loop of `main` -/

/-- The values inserted into one `Dialogue:` line of the output file. -/
structure Dialogue where
  start_time_str : String
  end_time_str : String
  x : Int
  y : Int
  p : RGB
  deriving DecidableEq, Repr

/-- The text of one record line as `main` writes it; the filler glyph after the closing
brace is the character sequence of the source file. -/
def Dialogue.line (d : Dialogue) : String :=
  "Dialogue: 0," ++ d.start_time_str ++ "," ++ d.end_time_str
    ++ ",Pixel,,0,0,0,,\x7b\\pos(" ++ toString d.x ++ "," ++ toString d.y ++ ")\\1c"
    ++ d.p.to_ass ++ "\x7dâ–ˆ\n"

/-- How a loop whose termination is not guaranteed ends within a given number of steps. -/
inductive Run (α : Type) where
  | done (a : α)
  | undefined_read
  | out_of_fuel
  deriving DecidableEq, Repr

/-- The loop `for (int x = 0; x < frame.width; x += pixel_block_size - 25)` of `main` for
one row `y`, started at `x`; `out` is the list of records written so far. -/
def grid_row : Nat → Frame → Int → String → String → Int → Int → List Dialogue →
    Run (List Dialogue)
  | 0, _, _, _, _, _, _, _ => Run.out_of_fuel
  | fuel + 1, frame, pixel_block_size, start_time_str, end_time_str, y, x, out =>
    if x < frame.width then
      match frame.get_pixel x y with
      | none => Run.undefined_read
      | some p =>
        grid_row fuel frame pixel_block_size start_time_str end_time_str y
          (x + (pixel_block_size - 25)) (out ++ [⟨start_time_str, end_time_str, x, y, p⟩])
    else Run.done out

/-- The loop `for (int y = 0; y < frame.height; y += pixel_block_size)` of `main`, started
at `y`. -/
def grid : Nat → Frame → Int → String → String → Int → List Dialogue → Run (List Dialogue)
  | 0, _, _, _, _, _, _ => Run.out_of_fuel
  | fuel + 1, frame, pixel_block_size, start_time_str, end_time_str, y, out =>
    if y < frame.height then
      match grid_row fuel frame pixel_block_size start_time_str end_time_str y 0 out with
      | Run.done out1 =>
        grid fuel frame pixel_block_size start_time_str end_time_str (y + pixel_block_size) out1
      | Run.undefined_read => Run.undefined_read
      | Run.out_of_fuel => Run.out_of_fuel
    else Run.done out

/-- What `main` has produced: the frame numbers announced on `std::cout`
(`Processing frame ...`) and the records written to the file. -/
structure Output where
  processed : List Int
  file : List Dialogue
  deriving DecidableEq, Repr

/-- The loop `while (true)` of `main`, started at `current_output_frame`. -/
def main_loop : Nat → VideoReader → Int → Int → ℚ → Int → Output → Run Output
  | 0, _, _, _, _, _, _ => Run.out_of_fuel
  | fuel + 1, reader, pixel_block_size, frame_process_interval, fps, current_output_frame,
      out =>
    let (frame, reader1) := reader.get_frame current_output_frame
    if frame.pixels.isEmpty then Run.done out
    else if Int.tmod current_output_frame frame_process_interval = 0 then
      let start_time_seconds : ℚ := (current_output_frame : ℚ) / fps
      let end_time_seconds : ℚ :=
        ((current_output_frame + frame_process_interval : Int) : ℚ) / fps
      match grid fuel frame pixel_block_size (format_time start_time_seconds)
          (format_time end_time_seconds) 0 out.file with
      | Run.done file1 =>
        main_loop fuel reader1 pixel_block_size frame_process_interval fps
          (current_output_frame + 1) ⟨out.processed ++ [current_output_frame], file1⟩
      | Run.undefined_read => Run.undefined_read
      | Run.out_of_fuel => Run.out_of_fuel
    else
      main_loop fuel reader1 pixel_block_size frame_process_interval fps
        (current_output_frame + 1) out

/-- The frame rate `main` uses: the stream's average rate when there is a video stream and
the rate is positive, 25 otherwise. -/
def resolve_fps (avg_frame_rate : Option ℚ) : ℚ :=
  let fps : ℚ := match avg_frame_rate with
    | some q => q
    | none => 0
  if fps ≤ 0 then 25 else fps

/-- The records of one grid row `y`, as the specification describes the grid: columns
`x = 0, S, 2S, ...` below the width, where `S = pixel_block_size - 25`, each record with the
colour stored at `(x, y)`. -/
def row_records (frame : Frame) (pixel_block_size : Int) (start_time_str end_time_str : String)
    (y : Int) : List Dialogue :=
  let S := pixel_block_size - 25
  (List.range ((frame.width + S - 1) / S).toNat).filterMap fun (c : Nat) =>
    (frame.get_pixel ((c : Int) * S) y).map fun p =>
      ⟨start_time_str, end_time_str, (c : Int) * S, y, p⟩

/-- The records one rendered frame contributes, as the specification describes the grid:
rows `y = 0, B, 2B, ...` below the height, in row-major order. -/
def frame_records (frame : Frame) (pixel_block_size : Int)
    (start_time_str end_time_str : String) : List Dialogue :=
  (List.range ((frame.height + pixel_block_size - 1) / pixel_block_size).toNat).flatMap
    fun (r : Nat) => row_records frame pixel_block_size start_time_str end_time_str
      ((r : Int) * pixel_block_size)

/-- The frame `get_frame` is expected to return for index `n`: the converted `n`-th
picture with the dimensions of the reader. -/
def VideoReader.decoded_frame (r : VideoReader) (n : Nat) : Frame :=
  { pixels := (r.frame_at n).getD [], width := r.width, height := r.height }

/-- The frame indices below `N` that the conversion loop renders for interval `I`, in
increasing order. -/
def rendered_indices (N : Nat) (frame_process_interval : Int) : List Nat :=
  (List.range N).filter fun (j : Nat) => (j : Int) % frame_process_interval = 0

/-- The records the conversion loop is expected to write for a stream: for every rendered
index `j`, the records of frame `j` with the window `j / fps` to `(j + I) / fps`. -/
def expected_file (r : VideoReader) (pixel_block_size frame_process_interval : Int)
    (fps : ℚ) : List Dialogue :=
  (rendered_indices r.decodable.length frame_process_interval).flatMap fun (j : Nat) =>
    frame_records (r.decoded_frame j) pixel_block_size
      (format_time (((j : Int) : ℚ) / fps))
      (format_time ((((j : Int) + frame_process_interval : Int) : ℚ) / fps))

/-- The colour stored at the top-left corner of the frame with index `n`. -/
def VideoReader.corner_pixel (r : VideoReader) (n : Nat) : RGB :=
  ((r.decoded_frame n).get_pixel 0 0).getD ⟨0, 0, 0⟩

/-- The number of grid columns of a frame: the columns `x = c * (B - 25)` below the width. -/
def grid_cols (frame : Frame) (pixel_block_size : Int) : Nat :=
  ((frame.width + (pixel_block_size - 25) - 1) / (pixel_block_size - 25)).toNat

/-- The number of grid rows of a frame: the rows `y = r * B` below the height. -/
def grid_rows (frame : Frame) (pixel_block_size : Int) : Nat :=
  ((frame.height + pixel_block_size - 1) / pixel_block_size).toNat

/-- The record of the grid cell in column `c` and row `r`: position
`(c * (B - 25), r * B)` and the colour `get_pixel` returns there. -/
def cell_record (frame : Frame) (pixel_block_size : Int) (start_time_str end_time_str : String)
    (r c : Nat) : Dialogue :=
  ⟨start_time_str, end_time_str, (c : Int) * (pixel_block_size - 25),
    (r : Int) * pixel_block_size,
    (frame.get_pixel ((c : Int) * (pixel_block_size - 25))
      ((r : Int) * pixel_block_size)).getD ⟨0, 0, 0⟩⟩


/-! # Theorems -/

/-! ## Colour text (`RGB::to_ass`) -/

set_option maxRecDepth 100000 in
/-- For an 8-bit value the conversion `%02X` prints the high and the low nibble. -/
theorem fmt02X_eq_hex2 : ∀ n, n < 256 → fmt02X n = hex2 n := by decide

/-- The stored characters of `to_ass` for 8-bit components. -/
theorem to_ass_eq (c : RGB) (h : c.is8bit) :
    c.to_ass = String.mk (['&', 'H'] ++ hex2 c.b ++ hex2 c.g ++ hex2 c.r ++ ['&']) := by
  obtain ⟨hr, hg, hb⟩ := h
  simp only [RGB.to_ass, fmt02X_eq_hex2 _ hr, fmt02X_eq_hex2 _ hg, fmt02X_eq_hex2 _ hb]
  rfl

/-- C9, as the claim states it, fails: the text of the colour `(0x12, 0x34, 0x56)` is
`&H563412&`, which has 9 characters, not 10. -/
theorem to_ass_length_ne_ten :
    (⟨0x12, 0x34, 0x56⟩ : RGB).is8bit ∧ (⟨0x12, 0x34, 0x56⟩ : RGB).to_ass = "&H563412&" ∧
      ¬ ((⟨0x12, 0x34, 0x56⟩ : RGB).to_ass.length = 10) := by decide

/-- C9 (amended): for every colour with 8-bit components, `to_ass` is the 9-character text
`&H`, then the two uppercase hexadecimal digits of `b`, of `g` and of `r` (component order
swapped, each component's digits in their own order), then `&`. -/
theorem to_ass_bgr (c : RGB) (h : c.is8bit) :
    c.to_ass
        = "&H" ++ String.mk (hex2 c.b) ++ String.mk (hex2 c.g) ++ String.mk (hex2 c.r) ++ "&"
      ∧ c.to_ass.length = 9 := by
  rw [to_ass_eq c h]
  exact ⟨rfl, rfl⟩

/-- C9 (amended) at the colour `(0x12, 0x34, 0x56)`. -/
theorem to_ass_bgr_witness :
    (⟨0x12, 0x34, 0x56⟩ : RGB).is8bit ∧
      (⟨0x12, 0x34, 0x56⟩ : RGB).to_ass = "&H563412&" ∧
      (⟨0x12, 0x34, 0x56⟩ : RGB).to_ass.length = 9 :=
  ⟨by decide, to_ass_bgr ⟨0x12, 0x34, 0x56⟩ (by decide)⟩

/-! ## Sampling (`Frame::get_pixel`) -/

/-- Inside the canvas of a frame that holds `width * height` pixels, `get_pixel` reads a
stored element. -/
theorem get_pixel_inside (f : Frame) (x y : Int)
    (hlen : (f.pixels.length : Int) = f.width * f.height)
    (hx0 : 0 ≤ x) (hx1 : x < f.width) (hy0 : 0 ≤ y) (hy1 : y < f.height) :
    ∃ h : (y * f.width + x).toNat < f.pixels.length,
      f.get_pixel x y = some (f.pixels.get ⟨(y * f.width + x).toNat, h⟩) := by
  have hidx : y * f.width + x < f.width * f.height := by nlinarith
  have hidx0 : 0 ≤ y * f.width + x := add_nonneg (mul_nonneg hy0 (by omega)) hx0
  have h : (y * f.width + x).toNat < f.pixels.length := by
    zify
    rw [Int.toNat_of_nonneg hidx0, hlen]
    exact hidx
  refine ⟨h, ?_⟩
  unfold Frame.get_pixel
  rw [if_neg (by omega)]
  simp [List.getElem?_eq_getElem h]

/-- C8: in a frame of width `W > 0`, height `H > 0` and `W * H` pixels, `get_pixel x y` is
the stored element `pixels[y * W + x]` when `0 ≤ x < W` and `0 ≤ y < H`, and black
otherwise. -/
theorem get_pixel_spec (f : Frame) (x y : Int) (_hW : 0 < f.width) (_hH : 0 < f.height)
    (hlen : (f.pixels.length : Int) = f.width * f.height) :
    ((0 ≤ x ∧ x < f.width ∧ 0 ≤ y ∧ y < f.height) →
      ∃ h : (y * f.width + x).toNat < f.pixels.length,
        f.get_pixel x y = some (f.pixels.get ⟨(y * f.width + x).toNat, h⟩)) ∧
    (¬ (0 ≤ x ∧ x < f.width ∧ 0 ≤ y ∧ y < f.height) → f.get_pixel x y = some ⟨0, 0, 0⟩) := by
  constructor
  · rintro ⟨hx0, hx1, hy0, hy1⟩
    exact get_pixel_inside f x y hlen hx0 hx1 hy0 hy1
  · intro hn
    unfold Frame.get_pixel
    rw [if_pos (by omega)]

/-- C8 on a 2 x 2 frame: the element stored for `(1, 1)` inside, black at `(2, 0)` and at
`(-1, 0)` outside. -/
theorem get_pixel_spec_witness :
    (⟨[⟨1, 1, 1⟩, ⟨2, 2, 2⟩, ⟨3, 3, 3⟩, ⟨4, 4, 4⟩], 2, 2⟩ : Frame).get_pixel 1 1
        = some ⟨4, 4, 4⟩ ∧
      (⟨[⟨1, 1, 1⟩, ⟨2, 2, 2⟩, ⟨3, 3, 3⟩, ⟨4, 4, 4⟩], 2, 2⟩ : Frame).get_pixel 2 0
        = some ⟨0, 0, 0⟩ ∧
      (⟨[⟨1, 1, 1⟩, ⟨2, 2, 2⟩, ⟨3, 3, 3⟩, ⟨4, 4, 4⟩], 2, 2⟩ : Frame).get_pixel (-1) 0
        = some ⟨0, 0, 0⟩ := by
  have h := get_pixel_spec ⟨[⟨1, 1, 1⟩, ⟨2, 2, 2⟩, ⟨3, 3, 3⟩, ⟨4, 4, 4⟩], 2, 2⟩
  refine ⟨?_, ?_, ?_⟩
  · obtain ⟨_, h1⟩ := (h 1 1 (by decide) (by decide) (by decide)).1 (by decide)
    rw [h1]; rfl
  · exact (h 2 0 (by decide) (by decide) (by decide)).2 (by decide)
  · exact (h (-1) 0 (by decide) (by decide) (by decide)).2 (by decide)


/-! ## Decimal text of integers -/

theorem toDigitsCore_append (b : Nat) : ∀ (fuel n : Nat) (ds : List Char),
    Nat.toDigitsCore b fuel n ds = Nat.toDigitsCore b fuel n [] ++ ds := by
  intro fuel
  induction fuel with
  | zero => intro n ds; simp [Nat.toDigitsCore]
  | succ k ih =>
    intro n ds
    simp only [Nat.toDigitsCore]
    split
    · simp
    · rw [ih (n / b) (Nat.digitChar (n % b) :: ds), ih (n / b) [Nat.digitChar (n % b)]]
      simp

theorem digitChar_value : ∀ k, k < 10 → (Nat.digitChar k).toNat - 48 = k := by decide

theorem digits_value_toDigitsCore : ∀ (fuel n : Nat), n < fuel →
    digits_value (Nat.toDigitsCore 10 fuel n []) = n := by
  intro fuel
  induction fuel with
  | zero => intro n h; omega
  | succ k ih =>
    intro n hn
    simp only [Nat.toDigitsCore]
    split
    · rename_i h0
      have : n < 10 := by omega
      simp [digits_value, digitChar_value n this, Nat.mod_eq_of_lt this]
    · rename_i h0
      rw [toDigitsCore_append]
      have hlt : n / 10 < k := by omega
      have := ih (n / 10) hlt
      unfold digits_value at this ⊢
      rw [List.foldl_append, this]
      simp [digitChar_value (n % 10) (Nat.mod_lt _ (by decide))]
      omega

theorem repr_injective (a b : Nat) (h : (Nat.repr a).data = (Nat.repr b).data) : a = b := by
  have ha := digits_value_toDigitsCore (a + 1) a (by omega)
  have hb := digits_value_toDigitsCore (b + 1) b (by omega)
  simp only [Nat.repr, Nat.toDigits, List.asString] at h
  rw [h] at ha
  omega

theorem repr_ne_nil (n : Nat) : (Nat.repr n).data ≠ [] := by
  simp only [Nat.repr, Nat.toDigits, List.asString, Nat.toDigitsCore]
  split
  · simp
  · rw [toDigitsCore_append]; simp

theorem put_int_one (n : Nat) : put_int 1 (n : Int) = (Nat.repr n).data := by
  have h := repr_ne_nil n
  have hl : 1 ≤ (Nat.repr n).data.length := by
    cases hd : (Nat.repr n).data with
    | nil => exact absurd hd h
    | cons c cs => simp
  show padLeft 1 '0' (Nat.repr n).data = _
  unfold padLeft
  rw [Nat.sub_eq_zero_of_le hl]
  rfl

set_option maxRecDepth 100000 in
theorem put_int_two_aux : ∀ n, n < 100 →
    padLeft 2 '0' (Nat.repr n).data = [Nat.digitChar (n / 10), Nat.digitChar (n % 10)] := by
  decide

theorem put_int_two (n : Nat) (h : n < 100) :
    put_int 2 (n : Int) = [Nat.digitChar (n / 10), Nat.digitChar (n % 10)] :=
  put_int_two_aux n h

theorem digitChar_injective : ∀ a, a < 10 → ∀ b, b < 10 →
    Nat.digitChar a = Nat.digitChar b → a = b := by decide

theorem two_digits_injective (a b : Nat) (ha : a < 100) (hb : b < 100)
    (h : [Nat.digitChar (a / 10), Nat.digitChar (a % 10)]
       = [Nat.digitChar (b / 10), Nat.digitChar (b % 10)]) : a = b := by
  simp only [List.cons.injEq, and_true] at h
  have h1 := digitChar_injective _ (by omega) _ (by omega) h.1
  have h2 := digitChar_injective _ (by omega) _ (by omega) h.2
  omega

theorem time_text_injective (H MM SS CC H' MM' SS' CC' : Nat)
    (hM : MM < 100) (hS : SS < 100) (hC : CC < 100)
    (hM' : MM' < 100) (hS' : SS' < 100) (hC' : CC' < 100)
    (h : time_text H MM SS CC = time_text H' MM' SS' CC') :
    H = H' ∧ MM = MM' ∧ SS = SS' ∧ CC = CC' := by
  unfold time_text at h
  have h1 : _ = _ := congrArg String.data h
  simp only [] at h1
  simp only [List.append_assoc] at h1
  have h2 := List.append_inj' h1 (by simp)
  obtain ⟨hH, hrest⟩ := h2
  simp only [List.cons_append, List.nil_append, List.cons.injEq, true_and, and_true] at hrest
  obtain ⟨m1, m2, s1, s2, c1, c2⟩ := hrest
  refine ⟨repr_injective _ _ hH, ?_, ?_, ?_⟩
  · exact two_digits_injective _ _ hM hM' (by simp [m1, m2])
  · exact two_digits_injective _ _ hS hS' (by simp [s1, s2])
  · exact two_digits_injective _ _ hC hC' (by simp [c1, c2])



/-! ## Time codes (`format_time`) -/

theorem trunc_of_nonneg (q : ℚ) (h : 0 ≤ q) : trunc q = ⌊q⌋ := by
  simp [trunc, h]

theorem floor_div_nat (x : ℚ) (n : Nat) (hn : 0 < n) : ⌊x / (n : ℚ)⌋ = ⌊x⌋ / (n : Int) := by
  have hn' : (0 : ℚ) < n := by exact_mod_cast hn
  have hnz : (0 : Int) < n := by exact_mod_cast hn
  rw [Int.floor_eq_iff]
  have h1 : ((⌊x⌋ : Int) : ℚ) ≤ x := Int.floor_le x
  have h2 : x < ((⌊x⌋ : Int) : ℚ) + 1 := Int.lt_floor_add_one x
  have h3 : (n : Int) * (⌊x⌋ / (n : Int)) ≤ ⌊x⌋ := Int.mul_ediv_self_le (by omega)
  have h4 : ⌊x⌋ < (n : Int) * (⌊x⌋ / (n : Int)) + n := Int.lt_mul_ediv_self_add hnz
  have h3' : ((n : ℚ)) * ((⌊x⌋ / (n : Int) : Int) : ℚ) ≤ (⌊x⌋ : ℚ) := by exact_mod_cast h3
  have h4' : (⌊x⌋ : ℚ) + 1 ≤ (n : ℚ) * ((⌊x⌋ / (n : Int) : Int) : ℚ) + n := by
    exact_mod_cast h4
  constructor
  · rw [le_div_iff₀ hn']; linarith
  · rw [div_lt_iff₀ hn']; linarith

/-- The four integer fields that `format_time` computes for a non-negative time. -/
theorem time_fields_eq (t : ℚ) (ht : 0 ≤ t) :
    time_fields t = (⌊t / 3600⌋, ⌊t / 60⌋ % 60, ⌊t⌋ % 60, ⌊100 * t⌋ % 100) := by
  have e3600 : ⌊t / 3600⌋ = ⌊t⌋ / 3600 := by
    have := floor_div_nat t 3600 (by norm_num); simpa using this
  have e60 : ⌊t / 60⌋ = ⌊t⌋ / 60 := by
    have := floor_div_nat t 60 (by norm_num); simpa using this
  have e100 : ⌊t⌋ = ⌊100 * t⌋ / 100 := by
    have := floor_div_nat (100 * t) 100 (by norm_num)
    simp only [Nat.cast_ofNat] at this
    rw [← this]; congr 1; ring
  have hfl : ((⌊t⌋ : Int) : ℚ) ≤ t := Int.floor_le t
  have hfl0 : 0 ≤ ⌊t⌋ := Int.floor_nonneg.mpr ht
  have hh : ((⌊t⌋ / 3600 * 3600 : Int) : ℚ) ≤ (⌊t⌋ : ℚ) := by
    exact_mod_cast Int.ediv_mul_le ⌊t⌋ (by norm_num)
  have hm : ((⌊t⌋ / 60 * 60 : Int) : ℚ) ≤ (⌊t⌋ : ℚ) := by
    exact_mod_cast Int.ediv_mul_le ⌊t⌋ (by norm_num)
  -- hours
  have H : trunc (t / 3600) = ⌊t / 3600⌋ := trunc_of_nonneg _ (by positivity)
  -- minutes
  have s1 : 0 ≤ t - ((⌊t / 3600⌋ * 3600 : Int) : ℚ) := by rw [e3600]; linarith
  have M : trunc ((t - ((⌊t / 3600⌋ * 3600 : Int) : ℚ)) / 60) = ⌊t / 60⌋ % 60 := by
    rw [trunc_of_nonneg _ (by positivity)]
    have : (t - ((⌊t / 3600⌋ * 3600 : Int) : ℚ)) / 60 = t / 60 - ((⌊t / 3600⌋ * 60 : Int) : ℚ) := by
      push_cast; ring
    rw [this, Int.floor_sub_int, e60, e3600]
    omega
  have s2 : 0 ≤ t - ((⌊t / 3600⌋ * 3600 : Int) : ℚ) - (((⌊t / 60⌋ % 60) * 60 : Int) : ℚ) := by
    have : ⌊t / 3600⌋ * 3600 + (⌊t / 60⌋ % 60) * 60 = ⌊t⌋ / 60 * 60 := by
      rw [e60, e3600]; omega
    have h' : ((⌊t / 3600⌋ * 3600 : Int) : ℚ) + (((⌊t / 60⌋ % 60) * 60 : Int) : ℚ)
        = ((⌊t⌋ / 60 * 60 : Int) : ℚ) := by exact_mod_cast this
    linarith
  have S : trunc (t - ((⌊t / 3600⌋ * 3600 : Int) : ℚ) - (((⌊t / 60⌋ % 60) * 60 : Int) : ℚ))
      = ⌊t⌋ % 60 := by
    rw [trunc_of_nonneg _ s2]
    have : t - ((⌊t / 3600⌋ * 3600 : Int) : ℚ) - (((⌊t / 60⌋ % 60) * 60 : Int) : ℚ)
        = t - ((⌊t / 3600⌋ * 3600 + (⌊t / 60⌋ % 60) * 60 : Int) : ℚ) := by
      push_cast; ring
    rw [this, Int.floor_sub_int, e60, e3600]
    omega
  have C : trunc ((t - ((⌊t / 3600⌋ * 3600 : Int) : ℚ) - (((⌊t / 60⌋ % 60) * 60 : Int) : ℚ)
      - ((⌊t⌋ % 60 : Int) : ℚ)) * 100) = ⌊100 * t⌋ % 100 := by
    have e : ⌊t / 3600⌋ * 3600 + (⌊t / 60⌋ % 60) * 60 + ⌊t⌋ % 60 = ⌊t⌋ := by
      rw [e60, e3600]; omega
    have e' : ((⌊t / 3600⌋ * 3600 : Int) : ℚ) + (((⌊t / 60⌋ % 60) * 60 : Int) : ℚ)
        + ((⌊t⌋ % 60 : Int) : ℚ) = (⌊t⌋ : ℚ) := by exact_mod_cast e
    have this : (t - ((⌊t / 3600⌋ * 3600 : Int) : ℚ) - (((⌊t / 60⌋ % 60) * 60 : Int) : ℚ)
      - ((⌊t⌋ % 60 : Int) : ℚ)) * 100 = 100 * t - ((100 * ⌊t⌋ : Int) : ℚ) := by
      push_cast at e' ⊢; linarith
    rw [this, trunc_of_nonneg _ (by push_cast; linarith), Int.floor_sub_int]
    omega
  unfold time_fields
  simp only [H, M, S, C]

/-- The text `format_time` prints is made of the four fields. -/
theorem format_time_print (t : ℚ) :
    format_time t = String.mk (put_int 1 (time_fields t).1 ++ [':']
      ++ put_int 2 (time_fields t).2.1 ++ [':'] ++ put_int 2 (time_fields t).2.2.1 ++ ['.']
      ++ put_int 2 (time_fields t).2.2.2) := rfl

/-- The text of `format_time t` for a non-negative time, with the fields as integers. -/
theorem format_time_ints (t : ℚ) (ht : 0 ≤ t) :
    format_time t = String.mk (put_int 1 ⌊t / 3600⌋ ++ [':'] ++ put_int 2 (⌊t / 60⌋ % 60) ++ [':']
      ++ put_int 2 (⌊t⌋ % 60) ++ ['.'] ++ put_int 2 (⌊100 * t⌋ % 100)) := by
  rw [format_time_print, time_fields_eq t ht]



/-- The text of `format_time t` with the four fields as naturals. -/
theorem format_time_text (t : ℚ) (ht : 0 ≤ t) :
    format_time t = time_text ⌊t / 3600⌋.toNat (⌊t / 60⌋ % 60).toNat (⌊t⌋ % 60).toNat
      (⌊100 * t⌋ % 100).toNat := by
  have h0 : 0 ≤ ⌊t / 3600⌋ := Int.floor_nonneg.mpr (by positivity)
  have h1 : 0 ≤ ⌊t / 60⌋ % 60 := Int.emod_nonneg _ (by norm_num)
  have h2 : 0 ≤ ⌊t⌋ % 60 := Int.emod_nonneg _ (by norm_num)
  have h3 : 0 ≤ ⌊100 * t⌋ % 100 := Int.emod_nonneg _ (by norm_num)
  have b1 : ⌊t / 60⌋ % 60 < 60 := Int.emod_lt_of_pos _ (by norm_num)
  have b2 : ⌊t⌋ % 60 < 60 := Int.emod_lt_of_pos _ (by norm_num)
  have b3 : ⌊100 * t⌋ % 100 < 100 := Int.emod_lt_of_pos _ (by norm_num)
  rw [format_time_ints t ht]
  conv_lhs =>
    rw [← Int.toNat_of_nonneg h0, ← Int.toNat_of_nonneg h1, ← Int.toNat_of_nonneg h2,
      ← Int.toNat_of_nonneg h3]
  rw [put_int_one, put_int_two _ (by omega), put_int_two _ (by omega), put_int_two _ (by omega)]
  rfl

/-- The fields of `format_time t` in terms of the whole number of centiseconds in `t`. -/
theorem format_time_centis (t : ℚ) (ht : 0 ≤ t) :
    format_time t = time_text (⌊100 * t⌋.toNat / 360000) (⌊100 * t⌋.toNat / 6000 % 60)
      (⌊100 * t⌋.toNat / 100 % 60) (⌊100 * t⌋.toNat % 100) := by
  rw [format_time_text t ht]
  have hT : 0 ≤ ⌊100 * t⌋ := Int.floor_nonneg.mpr (by positivity)
  have e1 : ⌊t⌋ = ⌊100 * t⌋ / 100 := by
    have := floor_div_nat (100 * t) 100 (by norm_num)
    simp only [Nat.cast_ofNat] at this
    rw [← this]; congr 1; ring
  have e2 : ⌊t / 60⌋ = ⌊100 * t⌋ / 6000 := by
    have := floor_div_nat (100 * t) 6000 (by norm_num)
    simp only [Nat.cast_ofNat] at this
    rw [← this]; congr 1; ring
  have e3 : ⌊t / 3600⌋ = ⌊100 * t⌋ / 360000 := by
    have := floor_div_nat (100 * t) 360000 (by norm_num)
    simp only [Nat.cast_ofNat] at this
    rw [← this]; congr 1; ring
  rw [e1, e2, e3]
  congr 1 <;> omega

/-- Two non-negative times are printed alike exactly when they lie in the same
centisecond. -/
theorem format_time_eq_iff (a b : ℚ) (ha : 0 ≤ a) (hb : 0 ≤ b) :
    format_time a = format_time b ↔ ⌊100 * a⌋ = ⌊100 * b⌋ := by
  have hA : 0 ≤ ⌊100 * a⌋ := Int.floor_nonneg.mpr (by positivity)
  have hB : 0 ≤ ⌊100 * b⌋ := Int.floor_nonneg.mpr (by positivity)
  constructor
  · intro h
    rw [format_time_centis a ha, format_time_centis b hb] at h
    have := time_text_injective _ _ _ _ _ _ _ _ (by omega) (by omega) (by omega) (by omega)
      (by omega) (by omega) h
    omega
  · intro h
    rw [format_time_centis a ha, format_time_centis b hb, h]

/-- C6: over exact non-negative rational seconds `t`, `format_time t` is the text
`H:MM:SS.CC` with `H = floor(t/3600)` unpadded, `MM = floor(t/60) mod 60`,
`SS = floor(t) mod 60`, `CC = floor(100 t) mod 100`, the last three below 60, 60 and 100 and
printed as exactly two digits; `format_time 0` is `0:00:00.00` and `format_time 3661.239` is
`1:01:01.23`. -/
theorem format_time_fields (t : ℚ) (ht : 0 ≤ t) :
    format_time t = time_text ⌊t / 3600⌋.toNat (⌊t / 60⌋ % 60).toNat (⌊t⌋ % 60).toNat
        (⌊100 * t⌋ % 100).toNat
      ∧ (⌊t / 60⌋ % 60).toNat < 60 ∧ (⌊t⌋ % 60).toNat < 60 ∧ (⌊100 * t⌋ % 100).toNat < 100
      ∧ format_time 0 = "0:00:00.00" ∧ format_time (3661239 / 1000) = "1:01:01.23" := by
  refine ⟨format_time_text t ht, ?_, ?_, ?_, ?_, ?_⟩
  · have := Int.emod_lt_of_pos ⌊t / 60⌋ (by norm_num : (0 : Int) < 60); omega
  · have := Int.emod_lt_of_pos ⌊t⌋ (by norm_num : (0 : Int) < 60); omega
  · have := Int.emod_lt_of_pos ⌊100 * t⌋ (by norm_num : (0 : Int) < 100); omega
  · rw [format_time_text 0 (le_refl _)]
    norm_num
    decide
  · rw [format_time_text _ (by norm_num)]
    have f1 : ⌊(3661239 / 1000 : ℚ) / 3600⌋ = 1 := by norm_num [Int.floor_eq_iff]
    have f2 : ⌊(3661239 / 1000 : ℚ) / 60⌋ = 61 := by norm_num [Int.floor_eq_iff]
    have f3 : ⌊(3661239 / 1000 : ℚ)⌋ = 3661 := by norm_num [Int.floor_eq_iff]
    have f4 : ⌊100 * (3661239 / 1000 : ℚ)⌋ = 366123 := by norm_num [Int.floor_eq_iff]
    rw [f1, f2, f3, f4]
    decide

/-- C6 at `t = 36029.5` seconds (ten hours, 29.5 seconds): the hours field takes two
characters and the other fields keep their two digits. -/
theorem format_time_fields_witness :
    (0 : ℚ) ≤ 36000 + 59 / 2 ∧ format_time (36000 + 59 / 2) = "10:00:29.50" := by
  have h := (format_time_fields (36000 + 59 / 2) (by norm_num)).1
  have f1 : ⌊(36000 + 59 / 2 : ℚ) / 3600⌋ = 10 := by norm_num [Int.floor_eq_iff]
  have f2 : ⌊(36000 + 59 / 2 : ℚ) / 60⌋ = 600 := by norm_num [Int.floor_eq_iff]
  have f3 : ⌊(36000 + 59 / 2 : ℚ)⌋ = 36029 := by norm_num [Int.floor_eq_iff]
  have f4 : ⌊100 * (36000 + 59 / 2 : ℚ)⌋ = 3602950 := by norm_num [Int.floor_eq_iff]
  rw [f1, f2, f3, f4] at h
  refine ⟨by norm_num, ?_⟩
  rw [h]
  decide

/-- C7, as the claim states it, fails: `0 < 0.001`, yet both times are printed
`0:00:00.00`. -/
theorem format_time_not_injective :
    (0 : ℚ) ≤ 0 ∧ (0 : ℚ) < 1 / 1000 ∧ format_time 0 = format_time (1 / 1000) := by
  refine ⟨le_refl _, by norm_num, ?_⟩
  rw [format_time_eq_iff 0 (1 / 1000) (le_refl _) (by norm_num)]
  norm_num [Int.floor_eq_iff]

/-- C7 (amended): for non-negative times `start < end`, the two texts are distinct exactly
when the times lie in different centiseconds, `floor(100 start) < floor(100 end)`. -/
theorem format_time_distinct_iff (a b : ℚ) (ha : 0 ≤ a) (hab : a < b) :
    format_time a ≠ format_time b ↔ ⌊100 * a⌋ < ⌊100 * b⌋ := by
  have hb : 0 ≤ b := le_trans ha hab.le
  have hmono : ⌊100 * a⌋ ≤ ⌊100 * b⌋ := Int.floor_mono (by linarith)
  rw [Ne, format_time_eq_iff a b ha hb]
  omega

/-- C7 (amended) at `start = 0`, `end = 0.01`. -/
theorem format_time_distinct_iff_witness :
    (0 : ℚ) ≤ 0 ∧ (0 : ℚ) < 1 / 100 ∧ format_time 0 ≠ format_time (1 / 100) := by
  refine ⟨le_refl _, by norm_num, ?_⟩
  rw [format_time_distinct_iff 0 (1 / 100) (le_refl _) (by norm_num)]
  norm_num [Int.floor_eq_iff]


/-! ## The copy loop of `decode_next_frame` -/

theorem set_take_drop {α : Type} : ∀ (m : Nat) (A B : List α) (v : α),
    A.length = B.length → A[m]? = some v →
    (A.take m ++ B.drop m).set m v = A.take (m + 1) ++ B.drop (m + 1) := by
  intro m
  induction m with
  | zero =>
    intro A B v hl hv
    cases A with
    | nil => simp at hv
    | cons a A' =>
      cases B with
      | nil => simp at hl
      | cons b B' =>
        simp at hv
        simp [hv]
  | succ k ih =>
    intro A B v hl hv
    cases A with
    | nil => simp at hv
    | cons a A' =>
      cases B with
      | nil => simp at hl
      | cons b B' =>
        simp only [List.length_cons, Nat.add_right_cancel_iff] at hl
        simp only [List.getElem?_cons_succ] at hv
        simp only [List.take_succ_cons, List.drop_succ_cons, List.cons_append, List.set_cons_succ]
        rw [ih A' B' v hl hv]

theorem foldl_set_length {α β : Type} (idx : β → Nat) (val : β → α) :
    ∀ (l : List β) (px : List α),
      (l.foldl (fun px x => px.set (idx x) (val x)) px).length = px.length := by
  intro l
  induction l with
  | nil => intro px; rfl
  | cons a l ih => intro px; simp only [List.foldl_cons]; rw [ih]; simp

theorem copy_row_length (width : Int) (data : Nat → Nat) (ls y : Nat) (px : List RGB) :
    (copy_row width data ls y px).length = px.length := by
  unfold copy_row
  exact foldl_set_length _ _ _ _

theorem copy_to_vector_length (f : Frame) (data : Nat → Nat) (ls : Nat) :
    (copy_to_vector f data ls).pixels.length = f.pixels.length := by
  unfold copy_to_vector
  simp only
  generalize f.height.toNat = H
  induction H with
  | zero => simp
  | succ k ih => rw [List.range_succ, List.foldl_append]; simp [ih, copy_row_length]

theorem copy_to_vector_width (f : Frame) (data : Nat → Nat) (ls : Nat) :
    (copy_to_vector f data ls).width = f.width := rfl

theorem copy_to_vector_height (f : Frame) (data : Nat → Nat) (ls : Nat) :
    (copy_to_vector f data ls).height = f.height := rfl

/-- The picture as a list over naturals `W`, `H`. -/
theorem convert_nat (W H : Nat) (data : Nat → Nat) (ls : Nat) :
    convert (W : Int) (H : Int) data ls
      = (List.range (W * H)).map (fun i => rgb_at data ls (i / W) (i % W)) := by
  unfold convert
  have : ((W : Int) * (H : Int)).toNat = W * H := by
    have e : (W : Int) * (H : Int) = ((W * H : Nat) : Int) := by push_cast; rfl
    rw [e]; exact Int.toNat_ofNat _
  rw [this]; simp

theorem copy_row_upto (W H : Nat) (data : Nat → Nat) (ls y : Nat) (hy : y < H)
    (B : List RGB) (hB : B.length = W * H) :
    ∀ k, k ≤ W →
    (List.range k).foldl
      (fun px x => px.set (y * W + x) (rgb_at data ls y x))
      ((convert W H data ls).take (y * W) ++ B.drop (y * W))
      = (convert W H data ls).take (y * W + k) ++ B.drop (y * W + k) := by
  intro k
  induction k with
  | zero => intro _; simp
  | succ k ih =>
    intro hk
    rw [List.range_succ, List.foldl_append, ih (by omega)]
    simp only [List.foldl_cons, List.foldl_nil]
    have hlt : y * W + k < W * H := by
      have : (y + 1) * W ≤ H * W := Nat.mul_le_mul_right W (by omega)
      nlinarith
    have hW : 0 < W := by omega
    apply set_take_drop
    · rw [convert_nat]; simp [hB]
    · rw [convert_nat]
      simp only [List.getElem?_map]
      rw [List.getElem?_range hlt]
      simp only [Option.map_some', Option.some.injEq]
      have h1 : (y * W + k) / W = y := by
        rw [Nat.add_comm, Nat.add_mul_div_right _ _ hW, Nat.div_eq_of_lt (by omega)]; simp
      have h2 : (y * W + k) % W = k := by
        rw [Nat.add_comm, Nat.add_mul_mod_self_right, Nat.mod_eq_of_lt (by omega)]
      rw [h1, h2]

theorem copy_rows_upto (W H : Nat) (data : Nat → Nat) (ls : Nat)
    (B : List RGB) (hB : B.length = W * H) :
    ∀ k, k ≤ H →
    (List.range k).foldl (fun px y => copy_row (W : Int) data ls y px) B
      = (convert W H data ls).take (k * W) ++ B.drop (k * W) := by
  intro k
  induction k with
  | zero => intro _; simp
  | succ k ih =>
    intro hk
    rw [List.range_succ, List.foldl_append, ih (by omega)]
    simp only [List.foldl_cons, List.foldl_nil]
    unfold copy_row
    simp only [Int.toNat_ofNat]
    rw [copy_row_upto W H data ls k (by omega) B hB W (le_refl _)]
    have : k * W + W = (k + 1) * W := by ring
    rw [this]

/-- The copy loop overwrites the whole vector with the converted picture. -/
theorem copy_to_vector_pixels (f : Frame) (W H : Nat) (data : Nat → Nat) (ls : Nat)
    (hw : f.width = (W : Int)) (hh : f.height = (H : Int))
    (hlen : f.pixels.length = W * H) :
    (copy_to_vector f data ls).pixels = convert W H data ls := by
  unfold copy_to_vector
  simp only [hw, hh, Int.toNat_ofNat]
  rw [copy_rows_upto W H data ls f.pixels hlen H (le_refl _)]
  have hc : (convert W H data ls).length = H * W := by
    rw [convert_nat]; simp [Nat.mul_comm]
  rw [List.take_of_length_le (by omega), List.drop_of_length_le (by rw [hlen, Nat.mul_comm]; )]
  simp



/-! ## The reader -/

theorem yields_iff (v : Int) (p : Packet) :
    Packet.yields v p = true ↔ p.stream_index = v ∧ p.send_ret ≥ 0 ∧ p.receive_ret ≥ 0 := by
  simp [Packet.yields, and_assoc]

theorem same_stream_refl (r : VideoReader) : r.same_stream r :=
  ⟨rfl, rfl, rfl, rfl, rfl, rfl⟩

theorem same_stream_trans {a b c : VideoReader} (h1 : a.same_stream b) (h2 : b.same_stream c) :
    a.same_stream c := by
  unfold VideoReader.same_stream at h1 h2 ⊢
  rw [h2.1, h2.2.1, h2.2.2.1, h2.2.2.2.1, h2.2.2.2.2.1, h2.2.2.2.2.2]
  exact h1

theorem same_stream_decodable {a b : VideoReader} (h : a.same_stream b) :
    b.decodable = a.decodable := by
  unfold VideoReader.decodable
  rw [h.1, h.2.2.1]

/-- What one run of the packet loop of `decode_next_frame` does, started with the units
`pre` already read and the units `rest` still to come. -/
theorem decode_from_spec : ∀ (rest pre : List Packet) (r : VideoReader) (f : Frame),
    r.packets = pre ++ rest → r.pos = pre.length →
    r.current_frame_num = ((pre.filter (Packet.yields r.video_stream_idx)).length : Int) →
    (r.decode_next_frame_from f rest).2.1.Inv ∧
    r.same_stream (r.decode_next_frame_from f rest).2.1 ∧
    (r.decode_next_frame_from f rest).2.1.seeks = r.seeks ∧
    ((r.decode_next_frame_from f rest).1 = true →
      ∃ p, r.decodable[r.current_frame_num.toNat]? = some p ∧
        (r.decode_next_frame_from f rest).2.2 = copy_to_vector f p.rgb r.linesize ∧
        (r.decode_next_frame_from f rest).2.1.current_frame_num = r.current_frame_num + 1 ∧
        (r.decode_next_frame_from f rest).2.1.decodes = r.decodes + 1) ∧
    ((r.decode_next_frame_from f rest).1 = false →
      r.decodable.length = r.current_frame_num.toNat ∧
        (r.decode_next_frame_from f rest).2.2 = f ∧
        (r.decode_next_frame_from f rest).2.1.current_frame_num = r.current_frame_num ∧
        (r.decode_next_frame_from f rest).2.1.decodes = r.decodes) := by
  intro rest
  induction rest with
  | nil =>
    intro pre r f hp hpos hc
    have hstep : r.decode_next_frame_from f [] = (false, r, f) := rfl
    rw [hstep]
    refine ⟨⟨pre, [], hp, hpos, hc⟩, same_stream_refl r, rfl, ?_, ?_⟩
    · intro h; exact absurd h Bool.false_ne_true
    · intro _
      refine ⟨?_, rfl, rfl, rfl⟩
      unfold VideoReader.decodable
      rw [hp, hc]; simp
  | cons p rest ih =>
    intro pre r f hp hpos hc
    by_cases hy : Packet.yields r.video_stream_idx p = true
    · have hy' := (yields_iff _ _).1 hy
      have hstep : r.decode_next_frame_from f (p :: rest)
          = (true, { r with pos := r.pos + 1, current_frame_num := r.current_frame_num + 1,
                            decodes := r.decodes + 1 },
             copy_to_vector f p.rgb r.linesize) := by
        simp only [VideoReader.decode_next_frame_from]
        rw [if_pos hy'.1, if_pos hy'.2.1, if_pos hy'.2.2]
      rw [hstep]
      refine ⟨⟨pre ++ [p], rest, ?_, ?_, ?_⟩, ⟨rfl, rfl, rfl, rfl, rfl, rfl⟩, rfl, ?_, ?_⟩
      · show r.packets = _
        simp [hp]
      · show r.pos + 1 = _
        simp [hpos]
      · show r.current_frame_num + 1 = _
        simp only [hc, List.filter_append, List.length_append]
        simp [hy]
      · intro _
        refine ⟨p, ?_, rfl, rfl, rfl⟩
        unfold VideoReader.decodable
        rw [hp, hc, List.filter_append, List.filter_cons_of_pos hy, Int.toNat_ofNat]
        rw [List.getElem?_append_right (le_refl _)]
        simp
      · intro h; exact absurd h (by simp)
    · have hstep : r.decode_next_frame_from f (p :: rest)
          = ({ r with pos := r.pos + 1 } : VideoReader).decode_next_frame_from f rest := by
        have hn := mt (yields_iff _ _).2 hy
        simp only [VideoReader.decode_next_frame_from]
        split_ifs with h1 h2 h3
        · exact absurd ⟨h1, h2, h3⟩ hn
        · rfl
        · rfl
        · rfl
      rw [hstep]
      have hc' : ({ r with pos := r.pos + 1 } : VideoReader).current_frame_num
          = (((pre ++ [p]).filter (Packet.yields r.video_stream_idx)).length : Int) := by
        simp only [List.filter_append, List.length_append]
        simp [hy, hc]
      exact ih (pre ++ [p]) { r with pos := r.pos + 1 } f (by simp [hp]) (by simp [hpos]) hc'

/-- What `decode_next_frame` does in a state that satisfies the invariant. -/
theorem decode_next_frame_spec (r : VideoReader) (f : Frame) (hI : r.Inv) :
    (r.decode_next_frame f).2.1.Inv ∧
    r.same_stream (r.decode_next_frame f).2.1 ∧
    (r.decode_next_frame f).2.1.seeks = r.seeks ∧
    ((r.decode_next_frame f).1 = true →
      ∃ p, r.decodable[r.current_frame_num.toNat]? = some p ∧
        (r.decode_next_frame f).2.2 = copy_to_vector f p.rgb r.linesize ∧
        (r.decode_next_frame f).2.1.current_frame_num = r.current_frame_num + 1 ∧
        (r.decode_next_frame f).2.1.decodes = r.decodes + 1) ∧
    ((r.decode_next_frame f).1 = false →
      r.decodable.length = r.current_frame_num.toNat ∧
        (r.decode_next_frame f).2.2 = f ∧
        (r.decode_next_frame f).2.1.current_frame_num = r.current_frame_num ∧
        (r.decode_next_frame f).2.1.decodes = r.decodes) := by
  obtain ⟨pre, rest, hp, hpos, hc⟩ := hI
  unfold VideoReader.decode_next_frame
  have : r.packets.drop r.pos = rest := by rw [hp, hpos]; simp
  rw [this]
  exact decode_from_spec rest pre r f hp hpos hc

theorem Inv_frame_num_nonneg (r : VideoReader) (hI : r.Inv) : 0 ≤ r.current_frame_num := by
  obtain ⟨pre, rest, _, _, hc⟩ := hI
  rw [hc]; exact Int.natCast_nonneg _

theorem Inv_frame_num_le (r : VideoReader) (hI : r.Inv) :
    r.current_frame_num ≤ (r.decodable.length : Int) := by
  obtain ⟨pre, rest, hp, _, hc⟩ := hI
  unfold VideoReader.decodable
  rw [hc, hp, List.filter_append, List.length_append]
  push_cast; omega



theorem toNat_sub_step (n c : Int) (h : c ≤ n) :
    (n + 1 - (c + 1)).toNat + 1 = (n + 1 - c).toNat := by omega

/-- What the decode loop of `get_frame` does in a state that satisfies the invariant, given
at least as much fuel as the loop can use. -/
theorem get_frame_loop_spec : ∀ (fuel : Nat) (r : VideoReader) (f : Frame) (n : Int),
    r.Inv → (n + 1 - r.current_frame_num).toNat ≤ fuel →
    (r.get_frame_loop fuel f n).2.Inv ∧
    r.same_stream (r.get_frame_loop fuel f n).2 ∧
    (r.get_frame_loop fuel f n).2.seeks = r.seeks ∧
    (r.get_frame_loop fuel f n).1.width = f.width ∧
    (r.get_frame_loop fuel f n).1.height = f.height ∧
    (n < r.current_frame_num → r.get_frame_loop fuel f n = (f, r)) ∧
    (r.current_frame_num ≤ n → n < (r.decodable.length : Int) →
      (r.get_frame_loop fuel f n).2.current_frame_num = n + 1 ∧
      (r.get_frame_loop fuel f n).2.decodes = r.decodes + (n + 1 - r.current_frame_num).toNat ∧
      ∃ p f0, r.decodable[n.toNat]? = some p ∧ f0.width = f.width ∧ f0.height = f.height ∧
        f0.pixels.length = f.pixels.length ∧
        (r.get_frame_loop fuel f n).1 = copy_to_vector f0 p.rgb r.linesize) ∧
    (r.current_frame_num ≤ n → (r.decodable.length : Int) ≤ n →
      (r.get_frame_loop fuel f n).1.pixels = [] ∧
      (r.get_frame_loop fuel f n).2.current_frame_num = (r.decodable.length : Int) ∧
      (r.get_frame_loop fuel f n).2.decodes
        = r.decodes + ((r.decodable.length : Int) - r.current_frame_num).toNat) := by
  intro fuel
  induction fuel with
  | zero =>
    intro r f n hI hfuel
    have hlt : n < r.current_frame_num := by omega
    have hres : r.get_frame_loop 0 f n = (f, r) := rfl
    rw [hres]
    exact ⟨hI, same_stream_refl r, rfl, rfl, rfl, fun _ => rfl, fun h => by omega,
      fun h => by omega⟩
  | succ k ih =>
    intro r f n hI hfuel
    by_cases hle : r.current_frame_num ≤ n
    · have hspec := decode_next_frame_spec r f hI
      rcases hd : r.decode_next_frame f with ⟨b, r1, f1⟩
      rw [hd] at hspec
      obtain ⟨hI1, hsame1, hseeks1, htrue, hfalse⟩ := hspec
      cases b with
      | true =>
        have hres : r.get_frame_loop (k + 1) f n = r1.get_frame_loop k f1 n := by
          simp only [VideoReader.get_frame_loop, if_pos hle, hd]
        obtain ⟨p, hp, hf1, hc1, hdec1⟩ := htrue rfl
        simp only at hI1 hsame1 hseeks1 hf1 hc1 hdec1
        have hdecod : r1.decodable = r.decodable := same_stream_decodable hsame1
        have hc0 := Inv_frame_num_nonneg r hI
        have hlen : r.current_frame_num < (r.decodable.length : Int) := by
          have := (List.getElem?_eq_some_iff.1 hp).1
          omega
        obtain ⟨i1, i2, i3, i4, i5, i6, i7, i8⟩ := ih r1 f1 n hI1 (by rw [hc1]; omega)
        rw [hres]
        refine ⟨i1, same_stream_trans hsame1 i2, by rw [i3, hseeks1], ?_, ?_, ?_, ?_, ?_⟩
        · rw [i4, hf1]; rfl
        · rw [i5, hf1]; rfl
        · intro h; omega
        · intro _ hn
          by_cases hlast : n < r1.current_frame_num
          · have hn' : n = r.current_frame_num := by omega
            rw [i6 hlast]
            refine ⟨by simp only; omega, ?_, p, f, ?_, rfl, rfl, rfl, hf1⟩
            · simp only; rw [hdec1, hn']; simp
            · rw [hn']; exact hp
          · have hle1 : r1.current_frame_num ≤ n := by omega
            obtain ⟨j1, j2, q, f0, j3, j4, j5, j6, j7⟩ := i7 hle1 (by rw [hdecod]; exact hn)
            refine ⟨j1, ?_, q, f0, ?_, ?_, ?_, ?_, ?_⟩
            · rw [j2, hdec1, hc1, ← toNat_sub_step n r.current_frame_num hle]; ring
            · rw [← hdecod]; exact j3
            · rw [j4, hf1]; rfl
            · rw [j5, hf1]; rfl
            · rw [j6, hf1, copy_to_vector_length]
            · rw [j7, hsame1.2.2.2.2.2]
        · intro _ hn
          have hle1 : r1.current_frame_num ≤ n := by omega
          obtain ⟨j1, j2, j3⟩ := i8 hle1 (by rw [hdecod]; exact hn)
          refine ⟨j1, by rw [j2, hdecod], ?_⟩
          rw [j3, hdecod, hdec1, hc1]; omega
      | false =>
        have hres : r.get_frame_loop (k + 1) f n = ({ f1 with pixels := [] }, r1) := by
          simp only [VideoReader.get_frame_loop, if_pos hle, hd]
        obtain ⟨hN, hf1, hc1, hdec1⟩ := hfalse rfl
        simp only at hI1 hsame1 hseeks1 hf1 hc1 hdec1
        have hc0 := Inv_frame_num_nonneg r hI
        rw [hres]
        refine ⟨hI1, hsame1, hseeks1, by simp only; rw [hf1], by simp only; rw [hf1], ?_, ?_, ?_⟩
        · intro h; omega
        · intro _ hn; omega
        · intro _ _
          refine ⟨rfl, by simp only; omega, ?_⟩
          simp only; rw [hdec1]; omega
    · have hres : r.get_frame_loop (k + 1) f n = (f, r) := by
        simp only [VideoReader.get_frame_loop, if_neg hle]
      rw [hres]
      exact ⟨hI, same_stream_refl r, rfl, rfl, rfl, fun _ => rfl, fun h => absurd h hle,
        fun h => absurd h hle⟩



theorem get_frame_of_open (r : VideoReader) (n : Int) (h : r.is_open = true) :
    r.get_frame n
      = (if n < r.current_frame_num then r.seek_to_start else r).get_frame_loop
          (n + 1 - (if n < r.current_frame_num then r.seek_to_start else r).current_frame_num).toNat
          ⟨List.replicate (r.width * r.height).toNat ⟨0, 0, 0⟩, r.width, r.height⟩ n := by
  unfold VideoReader.get_frame
  simp [h]

theorem seek_to_start_Inv (r : VideoReader) : r.seek_to_start.Inv :=
  ⟨[], r.packets, rfl, rfl, rfl⟩

/-- What `get_frame` does on an open reader that satisfies the invariant. -/
theorem get_frame_spec (r : VideoReader) (n : Int) (hopen : r.is_open = true) (hI : r.Inv) :
    (r.get_frame n).2.Inv ∧
    r.same_stream (r.get_frame n).2 ∧
    (r.get_frame n).1.width = r.width ∧
    (r.get_frame n).1.height = r.height ∧
    (r.get_frame n).2.seeks = (if n < r.current_frame_num then r.seeks + 1 else r.seeks) ∧
    (0 ≤ n → n < (r.decodable.length : Int) →
      (r.get_frame n).2.current_frame_num = n + 1 ∧
      ∃ p f0, r.decodable[n.toNat]? = some p ∧ f0.width = r.width ∧ f0.height = r.height ∧
        f0.pixels.length = (r.width * r.height).toNat ∧
        (r.get_frame n).1 = copy_to_vector f0 p.rgb r.linesize) ∧
    (0 ≤ n → (r.decodable.length : Int) ≤ n →
      (r.get_frame n).1.pixels = [] ∧
      (r.get_frame n).2.current_frame_num = (r.decodable.length : Int)) ∧
    (n < 0 →
      (r.get_frame n).1.pixels = List.replicate (r.width * r.height).toNat ⟨0, 0, 0⟩ ∧
      (r.get_frame n).2.current_frame_num = 0) ∧
    (r.current_frame_num ≤ n → n < (r.decodable.length : Int) →
      (r.get_frame n).2.decodes = r.decodes + (n + 1 - r.current_frame_num).toNat) := by
  rw [get_frame_of_open r n hopen]
  have hc0 := Inv_frame_num_nonneg r hI
  by_cases hback : n < r.current_frame_num
  · simp only [if_pos hback]
    have hsame : r.same_stream r.seek_to_start := ⟨rfl, rfl, rfl, rfl, rfl, rfl⟩
    have hdecod : r.seek_to_start.decodable = r.decodable := same_stream_decodable hsame
    obtain ⟨i1, i2, i3, i4, i5, i6, i7, i8⟩ :=
      get_frame_loop_spec _ r.seek_to_start
        ⟨List.replicate (r.width * r.height).toNat ⟨0, 0, 0⟩, r.width, r.height⟩ n
        (seek_to_start_Inv r) (le_refl _)
    rw [hdecod] at i7 i8
    refine ⟨i1, same_stream_trans hsame i2, i4, i5, by rw [i3]; rfl, ?_, ?_, ?_, ?_⟩
    · intro h0 hn
      obtain ⟨j1, _, p, f0, j3, j4, j5, j6, j7⟩ := i7 h0 hn
      exact ⟨j1, p, f0, j3, j4, j5, by rw [j6]; simp, j7⟩
    · intro h0 hn
      exact ⟨(i8 h0 hn).1, (i8 h0 hn).2.1⟩
    · intro hneg
      rw [i6 hneg]
      exact ⟨rfl, rfl⟩
    · intro h; omega
  · simp only [if_neg hback]
    have hle : r.current_frame_num ≤ n := by omega
    obtain ⟨i1, i2, i3, i4, i5, i6, i7, i8⟩ :=
      get_frame_loop_spec _ r
        ⟨List.replicate (r.width * r.height).toNat ⟨0, 0, 0⟩, r.width, r.height⟩ n
        hI (le_refl _)
    refine ⟨i1, i2, i4, i5, i3, ?_, ?_, ?_, ?_⟩
    · intro _ hn
      obtain ⟨j1, _, p, f0, j3, j4, j5, j6, j7⟩ := i7 hle hn
      exact ⟨j1, p, f0, j3, j4, j5, by rw [j6]; simp, j7⟩
    · intro _ hn
      exact ⟨(i8 hle hn).1, (i8 hle hn).2.1⟩
    · intro hneg; omega
    · intro _ hn
      exact (i7 hle hn).2.1

theorem fresh_Inv (packets : List Packet) (v : Int) (W H ls : Nat) :
    (VideoReader.fresh packets v W H ls).Inv :=
  ⟨[], packets, rfl, rfl, rfl⟩

/-- Every state a fresh reader passes through is open, satisfies the invariant and is on
the same stream. -/
theorem reachable_spec (packets : List Packet) (v : Int) (W H ls : Nat) (r : VideoReader)
    (hr : (VideoReader.fresh packets v W H ls).Reachable r) :
    r.Inv ∧ r.is_open = true ∧ (VideoReader.fresh packets v W H ls).same_stream r := by
  induction hr with
  | start => exact ⟨fresh_Inv _ _ _ _ _, rfl, same_stream_refl _⟩
  | call n _ ih =>
    obtain ⟨hI, hopen, hsame⟩ := ih
    obtain ⟨i1, i2, _⟩ := get_frame_spec _ n hopen hI
    exact ⟨i1, by rw [i2.2.1, hopen], same_stream_trans hsame i2⟩

/-- On an open reader with natural dimensions that satisfies the invariant, a request for
an index below the number of decodable frames returns that frame. -/
theorem get_frame_in_range (r : VideoReader) (W H : Nat) (n : Nat) (hopen : r.is_open = true)
    (hI : r.Inv) (hw : r.width = (W : Int)) (hh : r.height = (H : Int))
    (hn : n < r.decodable.length) :
    some (r.get_frame (n : Int)).1.pixels = r.frame_at n ∧
    (r.get_frame (n : Int)).1.pixels.length = W * H ∧
    (r.get_frame (n : Int)).2.current_frame_num = (n : Int) + 1 := by
  obtain ⟨_, _, _, _, _, h6, _⟩ := get_frame_spec r n hopen hI
  obtain ⟨j1, p, f0, j3, j4, j5, j6, j7⟩ := h6 (Int.natCast_nonneg n) (by exact_mod_cast hn)
  have hlen : f0.pixels.length = W * H := by
    rw [j6, hw, hh]
    have e : (W : Int) * (H : Int) = ((W * H : Nat) : Int) := by push_cast; rfl
    rw [e]; exact Int.toNat_ofNat _
  have hpx := copy_to_vector_pixels f0 W H p.rgb r.linesize (by rw [j4, hw]) (by rw [j5, hh]) hlen
  simp only [Int.toNat_ofNat] at j3
  refine ⟨?_, ?_, j1⟩
  · unfold VideoReader.frame_at
    rw [j3, j7, hpx, hw, hh]; rfl
  · rw [j7, copy_to_vector_length, hlen]



/-! ## Requests to the reader -/

/-- C1: in every state reachable from a fresh open reader, `get_frame n` for `n` below the
number `N` of decodable frames returns a frame whose pixels are the conversion of the
`n`-th decodable frame, with the reader's dimensions; afterwards `current_frame_num` is
`n + 1` and `get_current_frame_num` is `n`. -/
theorem get_frame_returns_requested (packets : List Packet) (v : Int) (W H ls : Nat)
    (r : VideoReader) (hr : (VideoReader.fresh packets v W H ls).Reachable r)
    (n : Nat) (hn : n < (VideoReader.fresh packets v W H ls).decodable.length) :
    some (r.get_frame (n : Int)).1.pixels = (VideoReader.fresh packets v W H ls).frame_at n ∧
    (r.get_frame (n : Int)).1.width = (W : Int) ∧
    (r.get_frame (n : Int)).1.height = (H : Int) ∧
    (r.get_frame (n : Int)).2.current_frame_num = (n : Int) + 1 ∧
    (r.get_frame (n : Int)).2.get_current_frame_num = (n : Int) := by
  obtain ⟨hI, hopen, hsame⟩ := reachable_spec packets v W H ls r hr
  have hdec := same_stream_decodable hsame
  have hw : r.width = (W : Int) := hsame.2.2.2.1
  have hh : r.height = (H : Int) := hsame.2.2.2.2.1
  obtain ⟨h1, _, h3⟩ := get_frame_in_range r W H n hopen hI hw hh (by rw [hdec]; exact hn)
  obtain ⟨_, _, g3, g4, _⟩ := get_frame_spec r n hopen hI
  refine ⟨?_, by rw [g3, hw], by rw [g4, hh], h3, ?_⟩
  · rw [h1]
    unfold VideoReader.frame_at
    rw [hdec, hw, hh, hsame.2.2.2.2.2]
    rfl
  · unfold VideoReader.get_current_frame_num
    rw [h3]; ring

/-- C1 on the sample stream: after `get_frame 2`, the backward request `get_frame 1`
returns the second picture and leaves the counter at 2. -/
theorem get_frame_returns_requested_witness :
    (1 : Nat) < sample_reader.decodable.length ∧
    ((sample_reader.get_frame 2).2.get_frame ((1 : Nat) : Int)).1.pixels
      = [⟨20, 21, 22⟩, ⟨23, 24, 25⟩, ⟨26, 27, 28⟩, ⟨29, 30, 31⟩] ∧
    ((sample_reader.get_frame 2).2.get_frame ((1 : Nat) : Int)).2.current_frame_num = 2 := by
  have h := get_frame_returns_requested
    [sample_other, sample_packet 1, sample_other, sample_packet 2, sample_packet 3] 0 2 2 6
    (sample_reader.get_frame 2).2 (VideoReader.Reachable.call 2 VideoReader.Reachable.start)
    1 (by decide)
  refine ⟨by decide, ?_, h.2.2.2.1⟩
  have h1 := h.1
  have e : (VideoReader.fresh
      [sample_other, sample_packet 1, sample_other, sample_packet 2, sample_packet 3] 0 2 2
      6).frame_at 1 = some [⟨20, 21, 22⟩, ⟨23, 24, 25⟩, ⟨26, 27, 28⟩, ⟨29, 30, 31⟩] := by
    decide
  rw [e] at h1
  exact Option.some.inj h1



theorem run_cons (r : VideoReader) (n : Int) (ns : List Int) :
    r.run (n :: ns)
      = ((r.get_frame n).1 :: ((r.get_frame n).2.run ns).1, ((r.get_frame n).2.run ns).2) := rfl

theorem same_stream_frame_at {a b : VideoReader} (h : a.same_stream b) :
    b.frame_at = a.frame_at := by
  funext n
  unfold VideoReader.frame_at
  rw [same_stream_decodable h, h.2.2.2.1, h.2.2.2.2.1, h.2.2.2.2.2]

/-- A sequence of in-range requests: every call returns the requested frame, the `seeks`
counter never decreases, and it stays unchanged exactly when the indices are strictly
increasing and start at or after the frame counter. -/
theorem run_spec (W H : Nat) : ∀ (ns : List Nat) (r : VideoReader),
    r.is_open = true → r.Inv → r.width = (W : Int) → r.height = (H : Int) →
    (∀ n ∈ ns, n < r.decodable.length) →
    (r.run (ns.map (fun k : Nat => (k : Int)))).1.map (fun f => some f.pixels) = ns.map r.frame_at ∧
    r.seeks ≤ (r.run (ns.map (fun k : Nat => (k : Int)))).2.seeks ∧
    ((r.run (ns.map (fun k : Nat => (k : Int)))).2.seeks = r.seeks ↔
      (ns.Pairwise (· < ·) ∧ ∀ n ∈ ns, r.current_frame_num ≤ (n : Int))) := by
  intro ns
  induction ns with
  | nil => intro r _ _ _ _ _; simp [VideoReader.run]
  | cons n ns ih =>
    intro r hopen hI hw hh hlt
    obtain ⟨g1, g2, g3, g4, g5, _⟩ := get_frame_spec r n hopen hI
    obtain ⟨f1, _, f3⟩ := get_frame_in_range r W H n hopen hI hw hh (hlt n (by simp))
    have hdec := same_stream_decodable g2
    have hfa := same_stream_frame_at g2
    obtain ⟨i1, i2, i3⟩ := ih (r.get_frame n).2 (by rw [g2.2.1, hopen]) g1
      (by rw [g2.2.2.2.1, hw]) (by rw [g2.2.2.2.2.1, hh])
      (by rw [hdec]; intro m hm; exact hlt m (by simp [hm]))
    simp only [List.map_cons, run_cons]
    change (r.get_frame (n : Int)).2.seeks = _ at g5
    refine ⟨?_, ?_, ?_⟩
    · rw [i1, hfa, f1]
    · have : r.seeks ≤ (r.get_frame (n : Int)).2.seeks := by rw [g5]; split <;> omega
      exact le_trans this i2
    · rw [f3] at i3
      rw [List.pairwise_cons]
      by_cases hb : (n : Int) < r.current_frame_num
      · rw [if_pos hb] at g5
        constructor
        · intro h; omega
        · intro h
          have := h.2 n (by simp)
          omega
      · rw [if_neg hb] at g5
        rw [g5] at i3 i2
        rw [i3]
        constructor
        · rintro ⟨hp, hall⟩
          refine ⟨⟨fun m hm => ?_, hp⟩, ?_⟩
          · have := hall m hm; omega
          · intro m hm
            rcases List.mem_cons.1 hm with rfl | hm'
            · omega
            · have := hall m hm'; omega
        · rintro ⟨⟨hall, hp⟩, _⟩
          refine ⟨hp, fun m hm => ?_⟩
          have := hall m hm; omega

/-- C2, as the claim states it, fails: the non-decreasing requests `0, 0` on the sample
stream (3 decodable frames) execute `seek_to_start` once. -/
theorem repeated_request_seeks :
    [0, 0].Pairwise (fun a b : Nat => a ≤ b) ∧
    (∀ n ∈ [0, 0], n < sample_reader.decodable.length) ∧
    (sample_reader.run [0, 0]).2.seeks = 1 := by decide

/-- C2 (amended): for a non-decreasing sequence of indices below the number of decodable
frames, issued to a fresh reader, every call returns the frame with exactly the requested
index, and no call executes `seek_to_start` exactly when the sequence is strictly
increasing. -/
theorem increasing_requests_never_seek (packets : List Packet) (v : Int) (W H ls : Nat)
    (ns : List Nat) (_hmono : ns.Pairwise (· ≤ ·))
    (hlt : ∀ n ∈ ns, n < (VideoReader.fresh packets v W H ls).decodable.length) :
    ((VideoReader.fresh packets v W H ls).run (ns.map (fun k : Nat => (k : Int)))).1.map
        (fun f => some f.pixels) = ns.map (VideoReader.fresh packets v W H ls).frame_at ∧
    (((VideoReader.fresh packets v W H ls).run (ns.map (fun k : Nat => (k : Int)))).2.seeks = 0 ↔
      ns.Pairwise (· < ·)) := by
  obtain ⟨h1, _, h3⟩ := run_spec W H ns (VideoReader.fresh packets v W H ls) rfl
    (fresh_Inv _ _ _ _ _) rfl rfl hlt
  refine ⟨h1, ?_⟩
  have hs : (VideoReader.fresh packets v W H ls).seeks = 0 := rfl
  have hc : (VideoReader.fresh packets v W H ls).current_frame_num = 0 := rfl
  rw [hs, hc] at h3
  rw [h3]
  constructor
  · exact fun h => h.1
  · exact fun h => ⟨h, fun n _ => Int.natCast_nonneg n⟩

/-- C2 (amended) for the requests `0, 2` on the sample stream. -/
theorem increasing_requests_never_seek_witness :
    [0, 2].Pairwise (fun a b : Nat => a ≤ b) ∧
    (∀ n ∈ [0, 2], n < sample_reader.decodable.length) ∧
    (sample_reader.run [0, 2]).1.map (fun f => some f.pixels)
      = [sample_reader.frame_at 0, sample_reader.frame_at 2] ∧
    (sample_reader.run [0, 2]).2.seeks = 0 := by
  have h := increasing_requests_never_seek
    [sample_other, sample_packet 1, sample_other, sample_packet 2, sample_packet 3] 0 2 2 6
    [0, 2] (by decide) (by decide)
  exact ⟨by decide, by decide, h.1, h.2.2 (by decide)⟩



theorem forget_eq_iff (a b : VideoReader) :
    a.forget = b.forget ↔
      a.packets = b.packets ∧ a.pos = b.pos ∧ a.is_open = b.is_open ∧
      a.video_stream_idx = b.video_stream_idx ∧ a.current_frame_num = b.current_frame_num ∧
      a.width = b.width ∧ a.height = b.height ∧ a.linesize = b.linesize := by
  cases a; cases b
  simp [VideoReader.forget]

/-- The packet loop of `decode_next_frame` does not depend on the observer counters. -/
theorem decode_from_congr : ∀ (rest : List Packet) (a b : VideoReader) (f : Frame),
    a.forget = b.forget →
    (a.decode_next_frame_from f rest).1 = (b.decode_next_frame_from f rest).1 ∧
    (a.decode_next_frame_from f rest).2.1.forget = (b.decode_next_frame_from f rest).2.1.forget ∧
    (a.decode_next_frame_from f rest).2.2 = (b.decode_next_frame_from f rest).2.2 := by
  intro rest
  induction rest with
  | nil => intro a b f h; exact ⟨rfl, h, rfl⟩
  | cons p rest ih =>
    intro a b f h
    obtain ⟨pk, pos, op, vi, cfn, w, ht, ls, sa, da⟩ := a
    obtain ⟨pk', pos', op', vi', cfn', w', ht', ls', sb, db⟩ := b
    obtain ⟨h1, h2, h3, h4, h5, h6, h7, h8⟩ := (forget_eq_iff _ _).1 h
    simp only at h1 h2 h3 h4 h5 h6 h7 h8
    subst h1 h2 h3 h4 h5 h6 h7 h8
    have hrec := ih ⟨pk, pos + 1, op, vi, cfn, w, ht, ls, sa, da⟩
      ⟨pk, pos + 1, op, vi, cfn, w, ht, ls, sb, db⟩ f
      ((forget_eq_iff _ _).2 ⟨rfl, rfl, rfl, rfl, rfl, rfl, rfl, rfl⟩)
    simp only [VideoReader.decode_next_frame_from]
    split_ifs
    · exact ⟨rfl, (forget_eq_iff _ _).2 ⟨rfl, rfl, rfl, rfl, rfl, rfl, rfl, rfl⟩, rfl⟩
    · exact hrec
    · exact hrec
    · exact hrec

theorem decode_next_frame_congr (a b : VideoReader) (f : Frame) (h : a.forget = b.forget) :
    (a.decode_next_frame f).1 = (b.decode_next_frame f).1 ∧
    (a.decode_next_frame f).2.1.forget = (b.decode_next_frame f).2.1.forget ∧
    (a.decode_next_frame f).2.2 = (b.decode_next_frame f).2.2 := by
  obtain ⟨h1, h2, _⟩ := (forget_eq_iff a b).1 h
  unfold VideoReader.decode_next_frame
  rw [h1, h2]
  exact decode_from_congr _ a b f h

/-- The decode loop of `get_frame` does not depend on the observer counters. -/
theorem get_frame_loop_congr : ∀ (fuel : Nat) (a b : VideoReader) (f : Frame) (n : Int),
    a.forget = b.forget →
    (a.get_frame_loop fuel f n).1 = (b.get_frame_loop fuel f n).1 ∧
    (a.get_frame_loop fuel f n).2.forget = (b.get_frame_loop fuel f n).2.forget := by
  intro fuel
  induction fuel with
  | zero => intro a b f n h; exact ⟨rfl, h⟩
  | succ k ih =>
    intro a b f n h
    have hc : a.current_frame_num = b.current_frame_num := ((forget_eq_iff a b).1 h).2.2.2.2.1
    obtain ⟨d1, d2, d3⟩ := decode_next_frame_congr a b f h
    rcases ha : a.decode_next_frame f with ⟨ba, ra, fa⟩
    rcases hb : b.decode_next_frame f with ⟨bb, rb, fb⟩
    rw [ha, hb] at d1 d2 d3
    simp only at d1 d2 d3
    subst d1 d3
    simp only [VideoReader.get_frame_loop, ha, hb, hc]
    split_ifs
    · cases ba with
      | true => exact ih ra rb fa n d2
      | false => exact ⟨rfl, d2⟩
    · exact ⟨rfl, h⟩

/-- The frame `get_frame` returns does not depend on the observer counters. -/
theorem get_frame_congr (a b : VideoReader) (n : Int) (h : a.forget = b.forget) :
    (a.get_frame n).1 = (b.get_frame n).1 ∧
    (a.get_frame n).2.forget = (b.get_frame n).2.forget := by
  obtain ⟨h1, h2, h3, h4, h5, h6, h7, h8⟩ := (forget_eq_iff a b).1 h
  unfold VideoReader.get_frame
  simp only [h3, h5, h6, h7]
  cases b.is_open with
  | false => exact ⟨rfl, h⟩
  | true =>
    simp only [Bool.not_true, Bool.false_eq_true, if_false]
    by_cases hn : n < b.current_frame_num
    · simp only [if_pos hn]
      exact get_frame_loop_congr _ _ _ _ _
        ((forget_eq_iff _ _).2 ⟨h1, rfl, h3, h4, rfl, h6, h7, h8⟩)
    · simp only [if_neg hn, h5]
      exact get_frame_loop_congr _ _ _ _ _ h

theorem run_congr : ∀ (reqs : List Int) (a b : VideoReader), a.forget = b.forget →
    (a.run reqs).1 = (b.run reqs).1 := by
  intro reqs
  induction reqs with
  | nil => intro a b _; rfl
  | cons n ns ih =>
    intro a b h
    obtain ⟨g1, g2⟩ := get_frame_congr a b n h
    rw [run_cons, run_cons]
    simp only
    rw [g1, ih _ _ g2]

/-- C3: for a reachable state and a backward target `t < current_frame_num`, the frames
returned for `t` followed by any further requests are, call for call, those a fresh reader
on the same stream returns for the same requests. -/
theorem backward_request_replays_fresh (packets : List Packet) (v : Int) (W H ls : Nat)
    (r : VideoReader) (hr : (VideoReader.fresh packets v W H ls).Reachable r)
    (t : Int) (ht : t < r.current_frame_num) (reqs : List Int) :
    (r.run (t :: reqs)).1 = ((VideoReader.fresh packets v W H ls).run (t :: reqs)).1 := by
  obtain ⟨_, hopen, hsame⟩ := reachable_spec packets v W H ls r hr
  obtain ⟨s1, s2, s3, s4, s5, s6⟩ := hsame
  -- the backward request first resets the reader: from there on it is a fresh one
  have hfirst : (r.get_frame t) = (r.seek_to_start.get_frame_loop
      (t + 1 - r.seek_to_start.current_frame_num).toNat
      ⟨List.replicate (r.width * r.height).toNat ⟨0, 0, 0⟩, r.width, r.height⟩ t) := by
    rw [get_frame_of_open r t hopen, if_pos ht]
  have hfresh : (VideoReader.fresh packets v W H ls).get_frame t
      = ((if t < 0 then (VideoReader.fresh packets v W H ls).seek_to_start
            else VideoReader.fresh packets v W H ls).get_frame_loop
          (t + 1 - 0).toNat
          ⟨List.replicate (r.width * r.height).toNat ⟨0, 0, 0⟩, r.width, r.height⟩ t) := by
    rw [get_frame_of_open _ t rfl, s4, s5]
    have hc : (VideoReader.fresh packets v W H ls).current_frame_num = 0 := rfl
    rw [hc]
    split <;> rfl
  have hforget : r.seek_to_start.forget
      = (if t < 0 then (VideoReader.fresh packets v W H ls).seek_to_start
            else VideoReader.fresh packets v W H ls).forget := by
    rw [forget_eq_iff]
    split <;> exact ⟨s1, rfl, s2, s3, rfl, s4, s5, s6⟩
  obtain ⟨c1, c2⟩ := get_frame_loop_congr (t + 1 - 0).toNat _ _
    ⟨List.replicate (r.width * r.height).toNat ⟨0, 0, 0⟩, r.width, r.height⟩ t hforget
  rw [run_cons, run_cons]
  simp only
  rw [hfirst, hfresh]
  have hz : r.seek_to_start.current_frame_num = 0 := rfl
  rw [hz, c1, run_congr reqs _ _ c2]

/-- C3 on the sample stream: after `get_frame 2`, the requests `1, 2, 0, 5`. -/
theorem backward_request_replays_fresh_witness :
    (1 : Int) < (sample_reader.get_frame 2).2.current_frame_num ∧
    ((sample_reader.get_frame 2).2.run [1, 2, 0, 5]).1 = (sample_reader.run [1, 2, 0, 5]).1 :=
  ⟨by decide,
   backward_request_replays_fresh
    [sample_other, sample_packet 1, sample_other, sample_packet 2, sample_packet 3] 0 2 2 6
    (sample_reader.get_frame 2).2 (VideoReader.Reachable.call 2 VideoReader.Reachable.start)
    1 (by decide) [2, 0, 5]⟩

/-- C4: on a stream with `N` decodable frames and `width * height > 0`, in every reachable
state `get_frame n` returns an empty pixels vector exactly when `n ≥ N`; for `n < N` the
vector is non-empty (it holds `width * height` elements). -/
theorem end_of_stream_iff (packets : List Packet) (v : Int) (W H ls : Nat)
    (r : VideoReader) (hr : (VideoReader.fresh packets v W H ls).Reachable r)
    (hpos : 0 < (W : Int) * (H : Int)) (n : Int) :
    ((r.get_frame n).1.pixels = [] ↔
      ((VideoReader.fresh packets v W H ls).decodable.length : Int) ≤ n) ∧
    (n < ((VideoReader.fresh packets v W H ls).decodable.length : Int) →
      (r.get_frame n).1.pixels ≠ [] ∧ (r.get_frame n).1.pixels.length = W * H) := by
  obtain ⟨hI, hopen, hsame⟩ := reachable_spec packets v W H ls r hr
  have hdec := same_stream_decodable hsame
  have hw : r.width = (W : Int) := hsame.2.2.2.1
  have hh : r.height = (H : Int) := hsame.2.2.2.2.1
  have hWH : (r.width * r.height).toNat = W * H := by
    rw [hw, hh]
    have e : (W : Int) * (H : Int) = ((W * H : Nat) : Int) := by push_cast; rfl
    rw [e]; exact Int.toNat_ofNat _
  have hWHpos : 0 < W * H := by exact_mod_cast hpos
  obtain ⟨_, _, _, _, _, g6, g7, g8, _⟩ := get_frame_spec r n hopen hI
  rw [hdec] at g6 g7
  have hlen : n < ((VideoReader.fresh packets v W H ls).decodable.length : Int) →
      (r.get_frame n).1.pixels.length = W * H := by
    intro hn
    by_cases h0 : 0 ≤ n
    · obtain ⟨_, p, f0, _, _, _, j6, j7⟩ := g6 h0 hn
      rw [j7, copy_to_vector_length, j6, hWH]
    · rw [(g8 (by omega)).1, List.length_replicate, hWH]
  have hne : n < ((VideoReader.fresh packets v W H ls).decodable.length : Int) →
      (r.get_frame n).1.pixels ≠ [] := by
    intro hn he
    have := hlen hn
    rw [he, List.length_nil] at this
    omega
  refine ⟨⟨fun he => ?_, fun hn => ?_⟩, fun hn => ⟨hne hn, hlen hn⟩⟩
  · by_contra hc
    exact hne (by omega) he
  · exact (g7 (le_trans (Int.natCast_nonneg _) hn) hn).1

/-- C4 on the sample stream (3 decodable frames of 2 x 2 pixels), after `get_frame 1`. -/
theorem end_of_stream_iff_witness :
    (0 : Int) < ((2 : Nat) : Int) * ((2 : Nat) : Int) ∧
    ((sample_reader.get_frame 1).2.get_frame 3).1.pixels = [] ∧
    ((sample_reader.get_frame 1).2.get_frame 2).1.pixels ≠ [] := by
  have h := end_of_stream_iff
    [sample_other, sample_packet 1, sample_other, sample_packet 2, sample_packet 3] 0 2 2 6
    (sample_reader.get_frame 1).2 (VideoReader.Reachable.call 1 VideoReader.Reachable.start)
    (by decide)
  exact ⟨by decide, (h 3).1.2 (by decide), ((h 2).2 (by decide)).1⟩



/-! ## The block grid -/

/-- Counting grid lines: `c * S` lies below `w` exactly when `c` is below `ceil(w / S)`. -/
theorem grid_line_lt_iff (w S : Int) (hS : 0 < S) (c : Nat) :
    (c : Int) * S < w ↔ c < ((w + S - 1) / S).toNat := by
  rw [Int.lt_toNat]
  constructor
  · intro h
    have : ((c : Int) + 1) ≤ (w + S - 1) / S := by
      rw [Int.le_ediv_iff_mul_le hS]; nlinarith
    omega
  · intro h
    have : ((c : Int) + 1) ≤ (w + S - 1) / S := by omega
    rw [Int.le_ediv_iff_mul_le hS] at this
    nlinarith

/-- The records of the columns `c, c+1, ..., c+k-1` of row `y`. -/
theorem row_records_eq (frame : Frame) (B : Int) (s e : String) (y : Int) :
    row_records frame B s e y
      = (List.range' 0 ((frame.width + (B - 25) - 1) / (B - 25)).toNat).filterMap
          fun (c : Nat) => (frame.get_pixel ((c : Int) * (B - 25)) y).map fun p =>
            (⟨s, e, (c : Int) * (B - 25), y, p⟩ : Dialogue) := by
  unfold row_records
  simp only [List.range_eq_range']

/-- The row loop, started at column `c` of a row inside the canvas, with enough fuel: it
ends and appends the records of the remaining columns. -/
theorem grid_row_from (frame : Frame) (B : Int) (s e : String) (y : Int)
    (hlen : (frame.pixels.length : Int) = frame.width * frame.height)
    (hB : 25 < B) (hy0 : 0 ≤ y) (hy1 : y < frame.height) :
    ∀ (k c fuel : Nat) (out : List Dialogue),
      c + k = ((frame.width + (B - 25) - 1) / (B - 25)).toNat → k < fuel →
      grid_row fuel frame B s e y ((c : Int) * (B - 25)) out
        = Run.done (out ++ (List.range' c k).filterMap fun (c : Nat) =>
            (frame.get_pixel ((c : Int) * (B - 25)) y).map fun p =>
              (⟨s, e, (c : Int) * (B - 25), y, p⟩ : Dialogue)) := by
  have hS : 0 < B - 25 := by omega
  intro k
  induction k with
  | zero =>
    intro c fuel out hc hf
    obtain ⟨fuel', rfl⟩ : ∃ f', fuel = f' + 1 := ⟨fuel - 1, by omega⟩
    have hge : ¬ ((c : Int) * (B - 25) < frame.width) := by
      rw [grid_line_lt_iff _ _ hS]; omega
    simp only [grid_row, if_neg hge]
    simp
  | succ k ih =>
    intro c fuel out hc hf
    obtain ⟨fuel', rfl⟩ : ∃ f', fuel = f' + 1 := ⟨fuel - 1, by omega⟩
    have hlt : (c : Int) * (B - 25) < frame.width := by
      rw [grid_line_lt_iff _ _ hS]; omega
    have hx0 : 0 ≤ (c : Int) * (B - 25) := by positivity
    obtain ⟨hidx, hpx⟩ := get_pixel_inside frame _ y hlen hx0 hlt hy0 hy1
    have hnext : (c : Int) * (B - 25) + (B - 25) = ((c + 1 : Nat) : Int) * (B - 25) := by
      push_cast; ring
    simp only [grid_row, if_pos hlt, hpx]
    rw [hnext, ih (c + 1) fuel' _ (by omega) (by omega)]
    rw [List.range'_succ, List.filterMap_cons_some (by rw [hpx]; rfl)]
    simp

/-- The row loop on a row inside the canvas of a frame that holds `width * height`
pixels, for a block size above 25 and enough fuel: it ends with the records of the row. -/
theorem grid_row_spec (frame : Frame) (B : Int) (s e : String) (y : Int)
    (hlen : (frame.pixels.length : Int) = frame.width * frame.height)
    (hB : 25 < B) (hy0 : 0 ≤ y) (hy1 : y < frame.height) (fuel : Nat) (out : List Dialogue)
    (hf : ((frame.width + (B - 25) - 1) / (B - 25)).toNat < fuel) :
    grid_row fuel frame B s e y 0 out = Run.done (out ++ row_records frame B s e y) := by
  have h := grid_row_from frame B s e y hlen hB hy0 hy1 _ 0 fuel out (by simp) hf
  rw [row_records_eq]
  simpa using h

/-- The grid loop, started at row `r`, with enough fuel: it ends and appends the records
of the remaining rows. -/
theorem grid_from (frame : Frame) (B : Int) (s e : String)
    (hlen : (frame.pixels.length : Int) = frame.width * frame.height) (hB : 25 < B) :
    ∀ (k r fuel : Nat) (out : List Dialogue),
      r + k = ((frame.height + B - 1) / B).toNat →
      k + ((frame.width + (B - 25) - 1) / (B - 25)).toNat + 1 < fuel →
      grid fuel frame B s e ((r : Int) * B) out
        = Run.done (out ++ (List.range' r k).flatMap fun (r : Nat) =>
            row_records frame B s e ((r : Int) * B)) := by
  have hB0 : 0 < B := by omega
  intro k
  induction k with
  | zero =>
    intro r fuel out hr hf
    obtain ⟨fuel', rfl⟩ : ∃ f', fuel = f' + 1 := ⟨fuel - 1, by omega⟩
    have hge : ¬ ((r : Int) * B < frame.height) := by
      rw [grid_line_lt_iff _ _ hB0]; omega
    simp only [grid, if_neg hge]
    simp
  | succ k ih =>
    intro r fuel out hr hf
    obtain ⟨fuel', rfl⟩ : ∃ f', fuel = f' + 1 := ⟨fuel - 1, by omega⟩
    have hlt : (r : Int) * B < frame.height := by
      rw [grid_line_lt_iff _ _ hB0]; omega
    have hy0 : 0 ≤ (r : Int) * B := by positivity
    have hrow := grid_row_spec frame B s e _ hlen hB hy0 hlt fuel' out (by omega)
    have hnext : (r : Int) * B + B = ((r + 1 : Nat) : Int) * B := by push_cast; ring
    simp only [grid, if_pos hlt, hrow]
    rw [hnext, ih (r + 1) fuel' _ (by omega) (by omega)]
    rw [List.range'_succ]
    simp

/-- The grid loop of one frame that holds `width * height` pixels, for a block size above
25 and enough fuel: it ends and appends the records of the frame. -/
theorem grid_spec (frame : Frame) (B : Int) (s e : String)
    (hlen : (frame.pixels.length : Int) = frame.width * frame.height) (hB : 25 < B)
    (fuel : Nat) (out : List Dialogue)
    (hf : ((frame.height + B - 1) / B).toNat
      + ((frame.width + (B - 25) - 1) / (B - 25)).toNat + 1 < fuel) :
    grid fuel frame B s e 0 out = Run.done (out ++ frame_records frame B s e) := by
  have h := grid_from frame B s e hlen hB _ 0 fuel out (by simp) hf
  unfold frame_records
  rw [List.range_eq_range']
  simpa using h



/-! ## The conversion loop -/

theorem same_stream_decoded_frame {a b : VideoReader} (h : a.same_stream b) :
    b.decoded_frame = a.decoded_frame := by
  funext n
  unfold VideoReader.decoded_frame
  rw [same_stream_frame_at h, h.2.2.2.1, h.2.2.2.2.1]

/-- On an open reader with natural dimensions that satisfies the invariant, the frame
returned for an index below the number of decodable frames is the expected one. -/
theorem get_frame_eq_decoded_frame (r : VideoReader) (W H : Nat) (n : Nat)
    (hopen : r.is_open = true) (hI : r.Inv) (hw : r.width = (W : Int))
    (hh : r.height = (H : Int)) (hn : n < r.decodable.length) :
    (r.get_frame (n : Int)).1 = r.decoded_frame n ∧
    ((r.decoded_frame n).pixels.length : Int)
      = (r.decoded_frame n).width * (r.decoded_frame n).height := by
  obtain ⟨h1, h2, _⟩ := get_frame_in_range r W H n hopen hI hw hh hn
  obtain ⟨_, _, g3, g4, _⟩ := get_frame_spec r n hopen hI
  have e : (r.get_frame (n : Int)).1 = r.decoded_frame n := by
    rcases hf : (r.get_frame (n : Int)).1 with ⟨px, w, h⟩
    rw [hf] at h1 g3 g4
    simp only at h1 g3 g4
    unfold VideoReader.decoded_frame
    rw [← h1, g3, g4]
    rfl
  refine ⟨e, ?_⟩
  rw [← e, h2, g3, g4, hw, hh]
  push_cast; rfl

/-- The conversion loop started at frame `i` with `k` frames left, on a reader in any state
that satisfies the invariant, with enough fuel: it ends, having announced the remaining
multiples of the interval and appended their records. -/
theorem main_loop_from (W H : Nat) (hW : 0 < W) (hH : 0 < H) (B I : Int) (hB : 25 < B)
    (hI : 0 < I) (fps : ℚ) :
    ∀ (k i fuel : Nat) (r : VideoReader) (out : Output),
      r.is_open = true → r.Inv → r.width = (W : Int) → r.height = (H : Int) →
      i + k = r.decodable.length →
      k + ((((H : Int) + B - 1) / B).toNat
        + ((((W : Int) + (B - 25) - 1) / (B - 25)).toNat + 2)) < fuel →
      main_loop fuel r B I fps (i : Int) out
        = Run.done
            ⟨out.processed
              ++ ((List.range' i k).filter fun (j : Nat) => (j : Int) % I = 0).map
                  (fun (j : Nat) => (j : Int)),
             out.file
              ++ ((List.range' i k).filter fun (j : Nat) => (j : Int) % I = 0).flatMap
                  fun (j : Nat) => frame_records (r.decoded_frame j) B
                    (format_time (((j : Int) : ℚ) / fps))
                    (format_time ((((j : Int) + I : Int) : ℚ) / fps))⟩ := by
  intro k
  induction k with
  | zero =>
    intro i fuel r out hopen hInv hw hh hik hf
    obtain ⟨fuel', rfl⟩ : ∃ f', fuel = f' + 1 := ⟨fuel - 1, by omega⟩
    obtain ⟨_, _, _, _, _, _, g7, _⟩ := get_frame_spec r i hopen hInv
    have hempty := (g7 (Int.natCast_nonneg i) (by omega)).1
    rcases hg : r.get_frame (i : Int) with ⟨frame, r1⟩
    rw [hg] at hempty
    simp only at hempty
    simp only [main_loop, hg, hempty]
    simp
  | succ k ih =>
    intro i fuel r out hopen hInv hw hh hik hf
    obtain ⟨fuel', rfl⟩ : ∃ f', fuel = f' + 1 := ⟨fuel - 1, by omega⟩
    obtain ⟨g1, g2, _⟩ := get_frame_spec r i hopen hInv
    obtain ⟨e1, e2⟩ := get_frame_eq_decoded_frame r W H i hopen hInv hw hh (by omega)
    obtain ⟨_, l2, _⟩ := get_frame_in_range r W H i hopen hInv hw hh (by omega)
    rcases hg : r.get_frame (i : Int) with ⟨frame, r1⟩
    rw [hg] at g1 g2 e1 l2
    simp only at g1 g2 e1 l2
    subst e1
    have hne : (r.decoded_frame i).pixels.isEmpty = false := by
      have : 0 < W * H := Nat.mul_pos hW hH
      cases hp : (r.decoded_frame i).pixels with
      | nil => rw [hp] at l2; simp at l2; omega
      | cons a as => rfl
    have hrec := ih (i + 1) fuel' r1
    have hdf := same_stream_decoded_frame g2
    have hdec := same_stream_decodable g2
    have hnext : (i : Int) + 1 = ((i + 1 : Nat) : Int) := by push_cast; rfl
    have hw1 : (r.decoded_frame i).width = (W : Int) := hw
    have hh1 : (r.decoded_frame i).height = (H : Int) := hh
    by_cases hm : (i : Int) % I = 0
    · have htm : Int.tmod (i : Int) I = 0 := by
        rw [Int.tmod_eq_emod (Int.natCast_nonneg i) hI.le]; exact hm
      have hgrid := grid_spec (r.decoded_frame i) B
        (format_time (((i : Int) : ℚ) / fps)) (format_time ((((i : Int) + I : Int) : ℚ) / fps))
        e2 hB fuel' out.file (by rw [hw1, hh1]; omega)
      simp only [main_loop, hg, hne, htm]
      simp only [Bool.false_eq_true, if_false, if_true, hgrid]
      rw [hnext, hrec _ (by rw [g2.2.1, hopen]) g1 (by rw [g2.2.2.2.1, hw])
        (by rw [g2.2.2.2.2.1, hh]) (by rw [hdec]; omega) (by omega)]
      rw [List.range'_succ, List.filter_cons_of_pos (by simpa using hm), hdf]
      simp
    · have htm : ¬ (Int.tmod (i : Int) I = 0) := by
        rw [Int.tmod_eq_emod (Int.natCast_nonneg i) hI.le]; exact hm
      simp only [main_loop, hg, hne, htm]
      simp only [Bool.false_eq_true, if_false]
      rw [hnext, hrec _ (by rw [g2.2.1, hopen]) g1 (by rw [g2.2.2.2.1, hw])
        (by rw [g2.2.2.2.2.1, hh]) (by rw [hdec]; omega) (by omega)]
      rw [List.range'_succ, List.filter_cons_of_neg (by simpa using hm), hdf]

/-- The conversion loop on a fresh reader. -/
theorem main_loop_spec (packets : List Packet) (v : Int) (W H ls : Nat) (hW : 0 < W)
    (hH : 0 < H) (B I : Int) (hB : 25 < B) (hI : 0 < I) (fps : ℚ) (fuel : Nat)
    (hf : (VideoReader.fresh packets v W H ls).decodable.length
      + ((((H : Int) + B - 1) / B).toNat
        + ((((W : Int) + (B - 25) - 1) / (B - 25)).toNat + 2)) < fuel) :
    main_loop fuel (VideoReader.fresh packets v W H ls) B I fps 0 ⟨[], []⟩
      = Run.done
          ⟨(rendered_indices (VideoReader.fresh packets v W H ls).decodable.length I).map
              (fun (j : Nat) => (j : Int)),
           expected_file (VideoReader.fresh packets v W H ls) B I fps⟩ := by
  have h := main_loop_from W H hW hH B I hB hI fps
    (VideoReader.fresh packets v W H ls).decodable.length 0 fuel
    (VideoReader.fresh packets v W H ls) ⟨[], []⟩ rfl (fresh_Inv _ _ _ _ _) rfl rfl (by simp) hf
  unfold expected_file rendered_indices
  rw [List.range_eq_range']
  simpa using h



theorem mem_rendered_indices (N : Nat) (I : Int) (j : Nat) :
    j ∈ rendered_indices N I ↔ (j < N ∧ (j : Int) % I = 0) := by
  simp [rendered_indices]

theorem rendered_indices_increasing (N : Nat) (I : Int) :
    (rendered_indices N I).Pairwise (· < ·) := by
  unfold rendered_indices
  exact List.Pairwise.filter _ (List.pairwise_lt_range N)

/-- C5, as the claim states it, fails: on a stream with 3 decodable frames whose pictures
have width 0 and height 0, with `I = 2`, every frame `get_frame` returns has an empty pixels
vector, so the loop stops at frame 0 and renders nothing, although 0 and 2 are multiples of
2 below 3. -/
theorem zero_area_renders_nothing :
    sample_flat_reader.decodable.length = 3 ∧
    rendered_indices 3 2 = [0, 2] ∧
    ∀ fuel : Nat,
      main_loop (fuel + 1) sample_flat_reader 40 2 25 0 ⟨[], []⟩ = Run.done ⟨[], []⟩ := by
  refine ⟨by decide, by decide, fun fuel => ?_⟩
  have h : (sample_flat_reader.get_frame 0).1.pixels = [] := by decide
  rcases hg : sample_flat_reader.get_frame 0 with ⟨frame, r1⟩
  rw [hg] at h
  simp only at h
  simp only [main_loop, hg, h]
  simp

/-- C5 (amended): for a stream with `N` decodable frames of positive width and height, a
block size above 25 (the grid loop terminates) and an interval `I > 0`, the conversion loop
ends for every sufficiently large step budget; the frames it announces are exactly the
indices `j < N` with `j mod I = 0`, in increasing order, and the file holds the records of
exactly those frames, in that order (none for an index `≥ N`). -/
theorem main_loop_renders_multiples (packets : List Packet) (v : Int) (W H ls : Nat)
    (hW : 0 < W) (hH : 0 < H) (B I : Int) (hB : 25 < B) (hI : 0 < I) (fps : ℚ) :
    (∃ F : Nat, ∀ fuel : Nat, F ≤ fuel →
      main_loop fuel (VideoReader.fresh packets v W H ls) B I fps 0 ⟨[], []⟩
        = Run.done
            ⟨(rendered_indices (VideoReader.fresh packets v W H ls).decodable.length I).map
                (fun (j : Nat) => (j : Int)),
             expected_file (VideoReader.fresh packets v W H ls) B I fps⟩) ∧
    (∀ j : Nat, j ∈ rendered_indices (VideoReader.fresh packets v W H ls).decodable.length I ↔
      (j < (VideoReader.fresh packets v W H ls).decodable.length ∧ (j : Int) % I = 0)) ∧
    (rendered_indices (VideoReader.fresh packets v W H ls).decodable.length I).Pairwise
      (· < ·) := by
  refine ⟨⟨_, fun fuel hf => main_loop_spec packets v W H ls hW hH B I hB hI fps fuel
    (Nat.lt_of_succ_le hf)⟩, mem_rendered_indices _ _, rendered_indices_increasing _ _⟩

/-- C5 (amended) on the sample stream: `N = 3`, `I = 2` renders frames 0 and 2 only. -/
theorem main_loop_renders_multiples_witness :
    sample_reader.decodable.length = 3 ∧
    ∃ F : Nat, ∀ fuel : Nat, F ≤ fuel →
      main_loop fuel sample_reader 40 2 25 0 ⟨[], []⟩
        = Run.done ⟨[0, 2], expected_file sample_reader 40 2 25⟩ := by
  obtain ⟨F, hF⟩ := (main_loop_renders_multiples
    [sample_other, sample_packet 1, sample_other, sample_packet 2, sample_packet 3] 0 2 2 6
    (by decide) (by decide) 40 2 (by decide) (by decide) 25).1
  refine ⟨by decide, F, fun fuel hf => ?_⟩
  have h := hF fuel hf
  have e : (rendered_indices (VideoReader.fresh
      [sample_other, sample_packet 1, sample_other, sample_packet 2, sample_packet 3] 0 2 2
      6).decodable.length 2).map (fun (j : Nat) => (j : Int)) = [0, 2] := by decide
  rw [e] at h
  exact h



theorem flatMap_singleton {α β : Type} (f : α → List β) (g : α → β) :
    ∀ l : List α, (∀ x ∈ l, f x = [g x]) → l.flatMap f = l.map g := by
  intro l
  induction l with
  | nil => intro _; rfl
  | cons a l ih =>
    intro h
    rw [List.flatMap_cons, h a (by simp), ih (fun x hx => h x (by simp [hx]))]
    rfl

/-- A canvas side that fits one stride has exactly one grid line. -/
theorem one_grid_line (w S : Int) (hS : 0 < S) (hw0 : 0 < w) (hw : w ≤ S) :
    ((w + S - 1) / S).toNat = 1 := by
  have a := grid_line_lt_iff w S hS 0
  have b := grid_line_lt_iff w S hS 1
  simp only [Nat.cast_zero, zero_mul, Nat.cast_one, one_mul] at a b
  have a' := a.1 hw0
  have b' : ¬ (1 < ((w + S - 1) / S).toNat) := fun h => absurd (b.2 h) (by omega)
  omega

/-- A frame that fits one block (`width ≤ B - 25`, `height ≤ B`) contributes exactly one
record, for the cell at `(0, 0)`. -/
theorem frame_records_single (frame : Frame) (B : Int) (s e : String)
    (hlen : (frame.pixels.length : Int) = frame.width * frame.height)
    (hw0 : 0 < frame.width) (hh0 : 0 < frame.height)
    (hBw : frame.width ≤ B - 25) (hBh : frame.height ≤ B) :
    frame_records frame B s e = [⟨s, e, 0, 0, (frame.get_pixel 0 0).getD ⟨0, 0, 0⟩⟩] := by
  have hrows : ((frame.height + B - 1) / B).toNat = 1 :=
    one_grid_line _ _ (by omega) hh0 hBh
  have hcols : ((frame.width + (B - 25) - 1) / (B - 25)).toNat = 1 :=
    one_grid_line _ _ (by omega) hw0 hBw
  obtain ⟨_, hpx⟩ := get_pixel_inside frame 0 0 hlen (le_refl _) hw0 (le_refl _) hh0
  have r1 : List.range 1 = [0] := rfl
  unfold frame_records row_records
  simp only [hrows, hcols, r1]
  simp [hpx]

set_option maxRecDepth 1000000 in
/-- C10, as the claim states it, fails: with two frames, `I = 1` and a block size equal to
the canvas size (40 x 40, `B = 40`), every frame yields three records, at `x = 0, 15, 30`:
the horizontal stride is `B - 25`, not `B`. -/
theorem block_equal_to_canvas_three_records :
    ∃ out, main_loop 50 sample_square_reader 40 1 25 0 ⟨[], []⟩ = Run.done out ∧
      out.processed = [0, 1] ∧
      out.file.map (fun d => (d.x, d.y)) = [(0, 0), (15, 0), (30, 0), (0, 0), (15, 0), (30, 0)] := by
  refine ⟨_, main_loop_spec [sample_packet 1, sample_packet 2] 0 40 40 120 (by decide)
    (by decide) 40 1 (by decide) (by decide) 25 50 (by decide), by decide, ?_⟩
  decide


/-- C10 (amended): when the canvas fits one stride, `width ≤ B - 25` and `height ≤ B`,
every rendered frame yields exactly one record, for the cell at `(0, 0)` with the colour
stored there and the window `j / fps` to `(j + I) / fps`; for a stream of 2 decodable
frames and `I = 1` these are one record with window `0 / fps` to `1 / fps` and one with
window `1 / fps` to `2 / fps`. -/
theorem one_record_per_frame (packets : List Packet) (v : Int) (W H ls : Nat)
    (hW : 0 < W) (hH : 0 < H) (B I : Int) (hBw : (W : Int) ≤ B - 25) (hBh : (H : Int) ≤ B)
    (hI : 0 < I) (fps : ℚ) :
    ∃ F : Nat, ∀ fuel : Nat, F ≤ fuel →
      ∃ out, main_loop fuel (VideoReader.fresh packets v W H ls) B I fps 0 ⟨[], []⟩
          = Run.done out ∧
        out.processed
          = (rendered_indices (VideoReader.fresh packets v W H ls).decodable.length I).map
              (fun (j : Nat) => (j : Int)) ∧
        out.file
          = (rendered_indices (VideoReader.fresh packets v W H ls).decodable.length I).map
              (fun (j : Nat) => (⟨format_time (((j : Int) : ℚ) / fps),
                format_time ((((j : Int) + I : Int) : ℚ) / fps), 0, 0,
                (VideoReader.fresh packets v W H ls).corner_pixel j⟩ : Dialogue)) ∧
        ((VideoReader.fresh packets v W H ls).decodable.length = 2 → I = 1 →
          out.file
            = [⟨format_time (0 / fps), format_time (1 / fps), 0, 0,
                (VideoReader.fresh packets v W H ls).corner_pixel 0⟩,
               ⟨format_time (1 / fps), format_time (2 / fps), 0, 0,
                (VideoReader.fresh packets v W H ls).corner_pixel 1⟩]) := by
  have hW' : (0 : Int) < W := by exact_mod_cast hW
  have hH' : (0 : Int) < H := by exact_mod_cast hH
  have hB : 25 < B := by omega
  have hfile : expected_file (VideoReader.fresh packets v W H ls) B I fps
      = (rendered_indices (VideoReader.fresh packets v W H ls).decodable.length I).map
          (fun (j : Nat) => (⟨format_time (((j : Int) : ℚ) / fps),
            format_time ((((j : Int) + I : Int) : ℚ) / fps), 0, 0,
            (VideoReader.fresh packets v W H ls).corner_pixel j⟩ : Dialogue)) := by
    unfold expected_file
    apply flatMap_singleton
    intro j hj
    have hjN := ((mem_rendered_indices _ _ _).1 hj).1
    obtain ⟨_, e2⟩ := get_frame_eq_decoded_frame (VideoReader.fresh packets v W H ls) W H j rfl
      (fresh_Inv _ _ _ _ _) rfl rfl hjN
    exact frame_records_single _ B _ _ e2 hW' hH' hBw hBh
  refine ⟨_, fun fuel hf => ⟨_, main_loop_spec packets v W H ls hW hH B I hB hI fps fuel
    (Nat.lt_of_succ_le hf), rfl, hfile, ?_⟩⟩
  intro hN h1
  subst h1
  simp only [hfile, hN]
  have e : rendered_indices 2 1 = [0, 1] := by decide
  rw [e]
  norm_num



/-- C10 (amended) on a stream of two 2 x 2 pictures with `B = 40`, `I = 1`, 25 frames per
second. -/
theorem one_record_per_frame_witness :
    sample_pair_reader.decodable.length = 2 ∧
    ∃ F : Nat, ∀ fuel : Nat, F ≤ fuel →
      main_loop fuel sample_pair_reader 40 1 25 0 ⟨[], []⟩
        = Run.done ⟨[0, 1],
            [⟨"0:00:00.00", "0:00:00.04", 0, 0, ⟨10, 11, 12⟩⟩,
             ⟨"0:00:00.04", "0:00:00.08", 0, 0, ⟨20, 21, 22⟩⟩]⟩ := by
  obtain ⟨F, hF⟩ := one_record_per_frame [sample_packet 1, sample_other, sample_packet 2] 0 2 2 6
    (by decide) (by decide) 40 1 (by decide) (by decide) (by decide) 25
  refine ⟨by decide, F, fun fuel hf => ?_⟩
  obtain ⟨out, h1, h2, _, h4⟩ := hF fuel hf
  have hfile := h4 (by decide) rfl
  have t0 : format_time ((0 : ℚ) / 25) = "0:00:00.00" := by
    rw [format_time_centis _ (by norm_num)]
    have : ⌊(100 : ℚ) * (0 / 25)⌋ = 0 := by norm_num
    rw [this]; decide
  have t1 : format_time ((1 : ℚ) / 25) = "0:00:00.04" := by
    rw [format_time_centis _ (by norm_num)]
    have : ⌊(100 : ℚ) * (1 / 25)⌋ = 4 := by norm_num [Int.floor_eq_iff]
    rw [this]; decide
  have t2 : format_time ((2 : ℚ) / 25) = "0:00:00.08" := by
    rw [format_time_centis _ (by norm_num)]
    have : ⌊(100 : ℚ) * (2 / 25)⌋ = 8 := by norm_num [Int.floor_eq_iff]
    rw [this]; decide
  have p0 : (VideoReader.fresh [sample_packet 1, sample_other, sample_packet 2] 0 2 2
      6).corner_pixel 0 = ⟨10, 11, 12⟩ := by decide
  have p1 : (VideoReader.fresh [sample_packet 1, sample_other, sample_packet 2] 0 2 2
      6).corner_pixel 1 = ⟨20, 21, 22⟩ := by decide
  rw [t0, t1, t2, p0, p1] at hfile
  have hproc : out.processed = [0, 1] := by rw [h2]; decide
  rw [show sample_pair_reader
    = VideoReader.fresh [sample_packet 1, sample_other, sample_packet 2] 0 2 2 6 from rfl, h1]
  cases out
  simp only at hfile hproc
  rw [hfile, hproc]



/-! ## The cells of the grid -/

theorem filterMap_eq_map_of_some {α β : Type} (f : α → Option β) (g : α → β) :
    ∀ l : List α, (∀ x ∈ l, f x = some (g x)) → l.filterMap f = l.map g := by
  intro l
  induction l with
  | nil => intro _; rfl
  | cons a l ih =>
    intro h
    rw [List.filterMap_cons_some (h a (by simp)), ih (fun x hx => h x (by simp [hx]))]
    rfl

/-- Element `i * n + j` of a concatenation of lists of length `n`. -/
theorem getElem?_flatMap_uniform {α β : Type} (f : α → List β) (n : Nat) :
    ∀ (l : List α), (∀ a ∈ l, (f a).length = n) → ∀ (i j : Nat) (a : α),
      l[i]? = some a → j < n → (l.flatMap f)[i * n + j]? = (f a)[j]? := by
  intro l
  induction l with
  | nil => intro _ i j a h; simp at h
  | cons b l ih =>
    intro hlen i j a hi hj
    rw [List.flatMap_cons]
    cases i with
    | zero =>
      simp only [List.getElem?_cons_zero, Option.some.injEq] at hi
      subst hi
      rw [Nat.zero_mul, Nat.zero_add, List.getElem?_append_left (by rw [hlen b (by simp)]; exact hj)]
    | succ i =>
      simp only [List.getElem?_cons_succ] at hi
      have hb : (f b).length = n := hlen b (by simp)
      rw [List.getElem?_append_right (by rw [hb]; nlinarith), hb]
      have : (i + 1) * n + j - n = i * n + j := by
        have : (i + 1) * n = i * n + n := by ring
        omega
      rw [this]
      exact ih (fun a ha => hlen a (by simp [ha])) i j a hi hj

theorem length_flatMap_uniform {α β : Type} (f : α → List β) (n : Nat) :
    ∀ (l : List α), (∀ a ∈ l, (f a).length = n) → (l.flatMap f).length = l.length * n := by
  intro l
  induction l with
  | nil => intro _; simp
  | cons b l ih =>
    intro hlen
    rw [List.flatMap_cons, List.length_append, hlen b (by simp),
      ih (fun a ha => hlen a (by simp [ha])), List.length_cons]
    ring

/-- Inside the canvas of a frame that holds `width * height` pixels, a cell of the grid
reads a stored element. -/
theorem cell_inside (frame : Frame) (B : Int)
    (hlen : (frame.pixels.length : Int) = frame.width * frame.height) (hB : 25 < B)
    (r c : Nat) (hr : r < grid_rows frame B) (hc : c < grid_cols frame B) :
    0 ≤ (c : Int) * (B - 25) ∧ (c : Int) * (B - 25) < frame.width ∧
    0 ≤ (r : Int) * B ∧ (r : Int) * B < frame.height ∧
    ∃ p, frame.get_pixel ((c : Int) * (B - 25)) ((r : Int) * B) = some p ∧
      frame.pixels[(((r : Int) * B) * frame.width + (c : Int) * (B - 25)).toNat]? = some p := by
  have hx1 : (c : Int) * (B - 25) < frame.width :=
    (grid_line_lt_iff _ _ (by omega) c).2 hc
  have hy1 : (r : Int) * B < frame.height := (grid_line_lt_iff _ _ (by omega) r).2 hr
  have hx0 : 0 ≤ (c : Int) * (B - 25) := mul_nonneg (Int.natCast_nonneg c) (by omega)
  have hy0 : 0 ≤ (r : Int) * B := mul_nonneg (Int.natCast_nonneg r) (by omega)
  obtain ⟨hidx, hpx⟩ := get_pixel_inside frame _ _ hlen hx0 hx1 hy0 hy1
  refine ⟨hx0, hx1, hy0, hy1, _, hpx, ?_⟩
  rw [List.getElem?_eq_getElem hidx]
  rfl

/-- The records of one grid row of a frame that holds `width * height` pixels: one cell
record per column. -/
theorem row_records_cells (frame : Frame) (B : Int) (s e : String)
    (hlen : (frame.pixels.length : Int) = frame.width * frame.height) (hB : 25 < B)
    (r : Nat) (hr : r < grid_rows frame B) :
    row_records frame B s e ((r : Int) * B)
      = (List.range (grid_cols frame B)).map (cell_record frame B s e r) := by
  unfold row_records
  apply filterMap_eq_map_of_some
  intro c hc
  obtain ⟨_, _, _, _, p, hp, _⟩ := cell_inside frame B hlen hB r c hr (List.mem_range.1 hc)
  unfold cell_record
  rw [hp]
  rfl

/-- The records of a frame that holds `width * height` pixels, for a block size above 25:
the cell records in row-major order. -/
theorem frame_records_cells (frame : Frame) (B : Int) (s e : String)
    (hlen : (frame.pixels.length : Int) = frame.width * frame.height) (hB : 25 < B) :
    frame_records frame B s e
      = (List.range (grid_rows frame B)).flatMap fun (r : Nat) =>
          (List.range (grid_cols frame B)).map (cell_record frame B s e r) := by
  unfold frame_records
  apply List.flatMap_congr
  intro r hr
  exact row_records_cells frame B s e hlen hB r (List.mem_range.1 hr)

/-- Membership in the records of a frame: a record is the record of a cell of the grid. -/
theorem mem_frame_records (frame : Frame) (B : Int) (s e : String)
    (hlen : (frame.pixels.length : Int) = frame.width * frame.height) (hB : 25 < B)
    (d : Dialogue) :
    d ∈ frame_records frame B s e ↔
      ∃ r c, r < grid_rows frame B ∧ c < grid_cols frame B ∧ d = cell_record frame B s e r c := by
  rw [frame_records_cells frame B s e hlen hB]
  simp only [List.mem_flatMap, List.mem_map, List.mem_range]
  constructor
  · rintro ⟨r, hr, c, hc, rfl⟩
    exact ⟨r, c, hr, hc, rfl⟩
  · rintro ⟨r, c, hr, hc, rfl⟩
    exact ⟨r, hr, c, hc, rfl⟩

/-- The record with index `r * columns + c` in the records of a frame is the record of the
cell in column `c` and row `r`. -/
theorem frame_records_getElem (frame : Frame) (B : Int) (s e : String)
    (hlen : (frame.pixels.length : Int) = frame.width * frame.height) (hB : 25 < B)
    (r c : Nat) (hr : r < grid_rows frame B) (hc : c < grid_cols frame B) :
    (frame_records frame B s e)[r * grid_cols frame B + c]?
      = some (cell_record frame B s e r c) := by
  rw [frame_records_cells frame B s e hlen hB]
  rw [getElem?_flatMap_uniform _ (grid_cols frame B) _ (fun a _ => by simp) r c r
    (by rw [List.getElem?_range hr]) hc]
  rw [List.getElem?_map, List.getElem?_range hc]
  rfl

theorem frame_records_length (frame : Frame) (B : Int) (s e : String)
    (hlen : (frame.pixels.length : Int) = frame.width * frame.height) (hB : 25 < B) :
    (frame_records frame B s e).length = grid_rows frame B * grid_cols frame B := by
  rw [frame_records_cells frame B s e hlen hB]
  rw [length_flatMap_uniform _ (grid_cols frame B) _ (fun a _ => by simp)]
  simp



/-! ## The size of returned frames -/

/-- The dimensions and the size of the pixels vector of the frame `get_frame` returns, on
an open reader with natural dimensions that satisfies the invariant. -/
theorem get_frame_size (r : VideoReader) (W H : Nat) (n : Int) (hopen : r.is_open = true)
    (hI : r.Inv) (hw : r.width = (W : Int)) (hh : r.height = (H : Int)) :
    (r.get_frame n).1.width = (W : Int) ∧ (r.get_frame n).1.height = (H : Int) ∧
    (n < (r.decodable.length : Int) → (r.get_frame n).1.pixels.length = W * H) ∧
    ((r.decodable.length : Int) ≤ n → (r.get_frame n).1.pixels = []) := by
  have hWH : (r.width * r.height).toNat = W * H := by
    rw [hw, hh]
    have e : (W : Int) * (H : Int) = ((W * H : Nat) : Int) := by push_cast; rfl
    rw [e]; exact Int.toNat_ofNat _
  obtain ⟨_, _, g3, g4, _, g6, g7, g8, _⟩ := get_frame_spec r n hopen hI
  refine ⟨by rw [g3, hw], by rw [g4, hh], fun hn => ?_, fun hn => ?_⟩
  · by_cases h0 : 0 ≤ n
    · obtain ⟨_, p, f0, _, _, _, j6, j7⟩ := g6 h0 hn
      rw [j7, copy_to_vector_length, j6, hWH]
    · rw [(g8 (by omega)).1, List.length_replicate, hWH]
  · exact (g7 (le_trans (Int.natCast_nonneg _) hn) hn).1

/-- C13, as the claim states it, fails: the frame returned for a request past the end of
the sample stream (index 3 of 3 frames of 2 x 2 pixels) has an empty pixels vector, while
`width * height` is 4. -/
theorem past_end_frame_is_empty :
    (sample_reader.get_frame 3).1.pixels.length = 0 ∧
    (sample_reader.get_frame 3).1.width * (sample_reader.get_frame 3).1.height = 4 := by
  decide

/-- C13 (amended): every frame `get_frame` returns in a reachable state carries the
reader's width and height; for a request below the number `N` of decodable frames its
pixels vector has `width * height` elements, and for a request `n ≥ N` (past the end of the
stream) it is empty. -/
theorem returned_frame_size (packets : List Packet) (v : Int) (W H ls : Nat)
    (r : VideoReader) (hr : (VideoReader.fresh packets v W H ls).Reachable r) (n : Int) :
    (r.get_frame n).1.width = (W : Int) ∧ (r.get_frame n).1.height = (H : Int) ∧
    (n < ((VideoReader.fresh packets v W H ls).decodable.length : Int) →
      ((r.get_frame n).1.pixels.length : Int)
        = (r.get_frame n).1.width * (r.get_frame n).1.height) ∧
    (((VideoReader.fresh packets v W H ls).decodable.length : Int) ≤ n →
      (r.get_frame n).1.pixels.length = 0) := by
  obtain ⟨hI, hopen, hsame⟩ := reachable_spec packets v W H ls r hr
  have hdec := same_stream_decodable hsame
  obtain ⟨s1, s2, s3, s4⟩ := get_frame_size r W H n hopen hI hsame.2.2.2.1 hsame.2.2.2.2.1
  rw [hdec] at s3 s4
  refine ⟨s1, s2, fun hn => ?_, fun hn => ?_⟩
  · rw [s3 hn, s1, s2]; push_cast; rfl
  · rw [s4 hn]; rfl

/-- C13 (amended) on the sample stream (3 decodable frames of 2 x 2 pixels), after
`get_frame 1`: the frame for index 2 holds 4 pixels, the frame for index 5 none. -/
theorem returned_frame_size_witness :
    (((sample_reader.get_frame 1).2.get_frame 2).1.pixels.length : Int) = 2 * 2 ∧
    ((sample_reader.get_frame 1).2.get_frame 5).1.pixels.length = 0 := by
  have h := returned_frame_size
    [sample_other, sample_packet 1, sample_other, sample_packet 2, sample_packet 3] 0 2 2 6
    (sample_reader.get_frame 1).2 (VideoReader.Reachable.call 1 VideoReader.Reachable.start)
  refine ⟨?_, (h 5).2.2.2 (by decide)⟩
  have h2 := (h 2).2.2.1 (by decide)
  rw [(h 2).1, (h 2).2.1] at h2
  exact h2



/-- The grid loop of one frame that holds `width * height` pixels, for a block size above
25: for every sufficiently large step budget it ends and appends the records of the
frame. -/
theorem grid_done (frame : Frame) (B : Int) (s e : String)
    (hlen : (frame.pixels.length : Int) = frame.width * frame.height) (hB : 25 < B)
    (out : List Dialogue) :
    ∀ fuel : Nat, grid_rows frame B + grid_cols frame B + 2 ≤ fuel →
      grid fuel frame B s e 0 out = Run.done (out ++ frame_records frame B s e) := by
  intro fuel hf
  exact grid_spec frame B s e hlen hB fuel out (by unfold grid_rows grid_cols at hf; omega)

set_option maxRecDepth 1000000 in
/-- The first picture of the 40 x 40 sample stream holds `40 * 40` pixels. -/
theorem sample_square_frame_size :
    ((sample_square_reader.decoded_frame 0).pixels.length : Int)
      = (sample_square_reader.decoded_frame 0).width
        * (sample_square_reader.decoded_frame 0).height := by decide

/-- C11, as the claim states it, fails: on a 40 x 40 frame with `B = 40` the record of
column 1 in row 0 is at `x = 15`, the stride `B - 25`, not at `1 * 40`. -/
theorem second_column_is_not_at_block_size :
    ∃ recs, grid 10 (sample_square_reader.decoded_frame 0) 40 "" "" 0 [] = Run.done recs ∧
      (recs[1]?).map (fun d => (d.x, d.y)) = some (15, 0) ∧ (15 : Int) ≠ 1 * 40 := by
  refine ⟨_, grid_done _ 40 "" "" sample_square_frame_size (by decide) [] 10 (by decide), ?_,
    by decide⟩
  have hget := frame_records_getElem (sample_square_reader.decoded_frame 0) 40 "" ""
    sample_square_frame_size (by decide) 0 1 (by decide) (by decide)
  have hc : grid_cols (sample_square_reader.decoded_frame 0) 40 = 3 := by decide
  rw [hc] at hget
  rw [List.nil_append, show (1 : Nat) = 0 * 3 + 1 from rfl, hget]
  rfl

/-- C11 (amended): for a frame that holds `width * height` pixels and a block size
`B > 25`, the record emitted for the grid cell in column `c` and row `r` (the record with
index `r * columns + c` in emission order) carries the position `\\pos(x,y)` with
`x = c * (B - 25)` and `y = r * B`. -/
theorem record_position (frame : Frame) (B : Int) (s e : String)
    (hlen : (frame.pixels.length : Int) = frame.width * frame.height) (hB : 25 < B)
    (out : List Dialogue) :
    ∃ F : Nat, ∀ fuel : Nat, F ≤ fuel →
      ∃ recs, grid fuel frame B s e 0 out = Run.done (out ++ recs) ∧
        recs.length = grid_rows frame B * grid_cols frame B ∧
        ∀ r c : Nat, r < grid_rows frame B → c < grid_cols frame B →
          ∃ d, recs[r * grid_cols frame B + c]? = some d ∧
            d.x = (c : Int) * (B - 25) ∧ d.y = (r : Int) * B ∧
            d.line = "Dialogue: 0," ++ s ++ "," ++ e ++ ",Pixel,,0,0,0,,\x7b\\pos("
              ++ toString ((c : Int) * (B - 25)) ++ "," ++ toString ((r : Int) * B) ++ ")\\1c"
              ++ d.p.to_ass ++ "\x7dâ–ˆ\n" := by
  refine ⟨_, fun fuel hf => ⟨_, grid_done frame B s e hlen hB out fuel hf,
    frame_records_length frame B s e hlen hB, fun r c hr hc => ?_⟩⟩
  exact ⟨_, frame_records_getElem frame B s e hlen hB r c hr hc, rfl, rfl, rfl⟩

/-- C11 (amended) on a 40 x 40 frame with `B = 40`: the record of column 2 in row 0 is at
`(30, 0)`. -/
theorem record_position_witness :
    ∃ F : Nat, ∀ fuel : Nat, F ≤ fuel →
      ∃ recs, grid fuel (sample_square_reader.decoded_frame 0) 40 "a" "b" 0 [] = Run.done recs ∧
        recs.length = 3 ∧
        ∃ d, recs[2]? = some d ∧ d.x = 30 ∧ d.y = 0 ∧
          d.line = "Dialogue: 0,a,b,Pixel,,0,0,0,,\x7b\\pos(30,0)\\1c" ++ d.p.to_ass
            ++ "\x7dâ–ˆ\n" := by
  obtain ⟨F, hF⟩ := record_position (sample_square_reader.decoded_frame 0) 40 "a" "b"
    sample_square_frame_size (by decide) []
  refine ⟨F, fun fuel hf => ?_⟩
  obtain ⟨recs, h1, h2, h3⟩ := hF fuel hf
  obtain ⟨d, d1, d2, d3, d4⟩ := h3 0 2 (by decide) (by decide)
  have hc : grid_cols (sample_square_reader.decoded_frame 0) 40 = 3 := by decide
  have hr : grid_rows (sample_square_reader.decoded_frame 0) 40 = 1 := by decide
  rw [hc] at d1
  rw [hc, hr] at h2
  exact ⟨recs, h1, h2, d, d1, d2, d3, d4⟩



/-- The number of grid lines `0, S, 2S, ...` below a length `w ≥ 0` is `ceil(w / S)`. -/
theorem grid_lines_eq_ceil (w S : Int) (hS : 0 < S) (hw : 0 ≤ w) :
    (((w + S - 1) / S).toNat : Int) = ⌈(w : ℚ) / (S : ℚ)⌉ := by
  have hS' : (0 : ℚ) < (S : ℚ) := by exact_mod_cast hS
  have h1 : (w + S - 1) / S * S ≤ w + S - 1 := Int.ediv_mul_le _ (by omega)
  have h2 : w + S - 1 < ((w + S - 1) / S + 1) * S := Int.lt_ediv_add_one_mul_self _ hS
  have hpos : 0 ≤ (w + S - 1) / S := Int.ediv_nonneg (by omega) hS.le
  rw [Int.toNat_of_nonneg hpos]
  symm
  rw [Int.ceil_eq_iff]
  constructor
  · rw [lt_div_iff₀ hS']
    have : ((w + S - 1) / S - 1) * S < w := by nlinarith
    exact_mod_cast this
  · rw [div_le_iff₀ hS']
    have : w ≤ (w + S - 1) / S * S := by nlinarith
    exact_mod_cast this

/-- Every record of a frame that holds `width * height` pixels lies inside the canvas and
carries the colour stored at its position. -/
theorem frame_records_inside (frame : Frame) (B : Int) (s e : String)
    (hlen : (frame.pixels.length : Int) = frame.width * frame.height) (hB : 25 < B)
    (d : Dialogue) (hd : d ∈ frame_records frame B s e) :
    0 ≤ d.x ∧ d.x < frame.width ∧ 0 ≤ d.y ∧ d.y < frame.height ∧
    frame.get_pixel d.x d.y = some d.p ∧
    frame.pixels[(d.y * frame.width + d.x).toNat]? = some d.p := by
  obtain ⟨r, c, hr, hc, rfl⟩ := (mem_frame_records frame B s e hlen hB d).1 hd
  obtain ⟨a1, a2, a3, a4, p, hp, hs⟩ := cell_inside frame B hlen hB r c hr hc
  have hcp : (cell_record frame B s e r c).p = p := by
    unfold cell_record; simp only; rw [hp]; rfl
  refine ⟨a1, a2, a3, a4, ?_, ?_⟩
  · rw [hcp]; exact hp
  · rw [hcp]; exact hs

/-- C14: for one frame of width `W` and height `H` that holds `W * H` pixels, with
block size `B` and stride `S = B - 25 > 0`, the grid loops end and emit, in row-major
order, exactly the records for the positions `(c * S, r * B)` with `r * B < H` and
`c * S < W`, that is `ceil(H / B) * ceil(W / S)` records; the colour of each record is the
pixel stored at exactly its position, written with `to_ass`. -/
theorem grid_row_major (frame : Frame) (B : Int) (s e : String)
    (hW : 0 ≤ frame.width) (hH : 0 ≤ frame.height)
    (hlen : (frame.pixels.length : Int) = frame.width * frame.height) (hS : 0 < B - 25)
    (out : List Dialogue) :
    (grid_rows frame B : Int) = ⌈(frame.height : ℚ) / (B : ℚ)⌉ ∧
    (grid_cols frame B : Int) = ⌈(frame.width : ℚ) / ((B - 25 : Int) : ℚ)⌉ ∧
    (∀ r : Nat, r < grid_rows frame B ↔ (r : Int) * B < frame.height) ∧
    (∀ c : Nat, c < grid_cols frame B ↔ (c : Int) * (B - 25) < frame.width) ∧
    ∃ F : Nat, ∀ fuel : Nat, F ≤ fuel →
      ∃ recs, grid fuel frame B s e 0 out = Run.done (out ++ recs) ∧
        recs.map (fun d => (d.x, d.y))
          = (List.range (grid_rows frame B)).flatMap (fun (r : Nat) =>
              (List.range (grid_cols frame B)).map (fun (c : Nat) =>
                ((c : Int) * (B - 25), (r : Int) * B))) ∧
        recs.length = grid_rows frame B * grid_cols frame B ∧
        ∀ d ∈ recs,
          frame.pixels[(d.y * frame.width + d.x).toNat]? = some d.p ∧
          d.line = "Dialogue: 0," ++ d.start_time_str ++ "," ++ d.end_time_str
            ++ ",Pixel,,0,0,0,,\x7b\\pos(" ++ toString d.x ++ "," ++ toString d.y ++ ")\\1c"
            ++ d.p.to_ass ++ "\x7dâ–ˆ\n" := by
  have hB : 25 < B := by omega
  refine ⟨grid_lines_eq_ceil _ _ (by omega) hH, ?_, fun r => (grid_line_lt_iff _ _ (by omega) r).symm,
    fun c => (grid_line_lt_iff _ _ hS c).symm, ?_⟩
  · exact grid_lines_eq_ceil _ _ hS hW
  · refine ⟨_, fun fuel hf => ⟨_, grid_done frame B s e hlen hB out fuel hf, ?_,
      frame_records_length frame B s e hlen hB, fun d hd => ?_⟩⟩
    · rw [frame_records_cells frame B s e hlen hB, List.map_flatMap]
      simp only [List.map_map]
      rfl
    · exact ⟨(frame_records_inside frame B s e hlen hB d hd).2.2.2.2.2, rfl⟩


/-- C14 on a 40 x 40 frame with `B = 40` (stride 15): one row of three records, at
`x = 0, 15, 30`. -/
theorem grid_row_major_witness :
    ∃ F : Nat, ∀ fuel : Nat, F ≤ fuel →
      ∃ recs, grid fuel (sample_square_reader.decoded_frame 0) 40 "a" "b" 0 [] = Run.done recs ∧
        recs.map (fun d => (d.x, d.y)) = [(0, 0), (15, 0), (30, 0)] ∧ recs.length = 1 * 3 := by
  obtain ⟨_, _, _, _, F, hF⟩ := grid_row_major (sample_square_reader.decoded_frame 0) 40 "a" "b"
    (by decide) (by decide) sample_square_frame_size (by decide) []
  refine ⟨F, fun fuel hf => ?_⟩
  obtain ⟨recs, h1, h2, h3, _⟩ := hF fuel hf
  have hc : grid_cols (sample_square_reader.decoded_frame 0) 40 = 3 := by decide
  have hr : grid_rows (sample_square_reader.decoded_frame 0) 40 = 1 := by decide
  rw [hc, hr] at h2 h3
  exact ⟨recs, h1, h2, h3⟩

/-- C17: for every non-empty frame `get_frame` returns in a reachable state (the frames the
conversion loop accepts; they hold `width * height` pixels) and every block size above 25,
every position `(x, y)` the grid loops sample satisfies `0 ≤ x < width` and
`0 ≤ y < height`, and the colour of the record is the pixel stored there, not the black
sentinel of the out-of-bounds branch. -/
theorem sampling_stays_inside (packets : List Packet) (v : Int) (W H ls : Nat)
    (r : VideoReader) (hr : (VideoReader.fresh packets v W H ls).Reachable r) (n : Int)
    (hne : (r.get_frame n).1.pixels ≠ []) (B : Int) (hB : 25 < B) (s e : String)
    (out : List Dialogue) :
    ((r.get_frame n).1.pixels.length : Int)
      = (r.get_frame n).1.width * (r.get_frame n).1.height ∧
    ∃ F : Nat, ∀ fuel : Nat, F ≤ fuel →
      ∃ recs, grid fuel (r.get_frame n).1 B s e 0 out = Run.done (out ++ recs) ∧
        ∀ d ∈ recs,
          0 ≤ d.x ∧ d.x < (r.get_frame n).1.width ∧ 0 ≤ d.y ∧ d.y < (r.get_frame n).1.height ∧
          (r.get_frame n).1.get_pixel d.x d.y = some d.p ∧
          (r.get_frame n).1.pixels[(d.y * (r.get_frame n).1.width + d.x).toNat]? = some d.p := by
  obtain ⟨hI, hopen, hsame⟩ := reachable_spec packets v W H ls r hr
  obtain ⟨s1, s2, s3, s4⟩ := get_frame_size r W H n hopen hI hsame.2.2.2.1 hsame.2.2.2.2.1
  have hlen : ((r.get_frame n).1.pixels.length : Int)
      = (r.get_frame n).1.width * (r.get_frame n).1.height := by
    by_cases hn : n < (r.decodable.length : Int)
    · rw [s3 hn, s1, s2]; push_cast; rfl
    · exact absurd (s4 (by omega)) hne
  refine ⟨hlen, _, fun fuel hf => ⟨_, grid_done _ B s e hlen hB out fuel hf, fun d hd => ?_⟩⟩
  exact frame_records_inside _ B s e hlen hB d hd

/-- C17 on the frame the sample reader returns for index 2, with `B = 26` (stride 1): the
records are at `(0, 0)` and `(1, 0)`, inside the 2 x 2 canvas. -/
theorem sampling_stays_inside_witness :
    (sample_reader.get_frame 2).1.pixels ≠ [] ∧
    ∃ F : Nat, ∀ fuel : Nat, F ≤ fuel →
      ∃ recs, grid fuel (sample_reader.get_frame 2).1 26 "a" "b" 0 [] = Run.done recs ∧
        ∀ d ∈ recs, 0 ≤ d.x ∧ d.x < 2 ∧ 0 ≤ d.y ∧ d.y < 2 ∧
          (sample_reader.get_frame 2).1.get_pixel d.x d.y = some d.p := by
  obtain ⟨_, F, hF⟩ := sampling_stays_inside
    [sample_other, sample_packet 1, sample_other, sample_packet 2, sample_packet 3] 0 2 2 6
    sample_reader VideoReader.Reachable.start 2 (by decide) 26 (by decide) "a" "b" []
  refine ⟨by decide, F, fun fuel hf => ?_⟩
  obtain ⟨recs, h1, h2⟩ := hF fuel hf
  refine ⟨recs, h1, fun d hd => ?_⟩
  obtain ⟨a1, a2, a3, a4, a5, _⟩ := h2 d hd
  exact ⟨a1, a2, a3, a4, a5⟩



/-! ## The time window of a frame's records -/

/-- Whatever the row loop appends carries the start and end text it was given. -/
theorem grid_row_appends : ∀ (fuel : Nat) (frame : Frame) (B : Int) (s e : String) (y x : Int)
    (out recs : List Dialogue), grid_row fuel frame B s e y x out = Run.done recs →
    ∃ new, recs = out ++ new ∧ ∀ d ∈ new, d.start_time_str = s ∧ d.end_time_str = e := by
  intro fuel
  induction fuel with
  | zero => intro frame B s e y x out recs h; simp [grid_row] at h
  | succ k ih =>
    intro frame B s e y x out recs h
    simp only [grid_row] at h
    split_ifs at h with hx
    · cases hp : frame.get_pixel x y with
      | none => rw [hp] at h; simp at h
      | some p =>
        rw [hp] at h
        simp only at h
        obtain ⟨new, h1, h2⟩ := ih frame B s e y _ _ recs h
        refine ⟨⟨s, e, x, y, p⟩ :: new, by rw [h1]; simp, ?_⟩
        intro d hd
        rcases List.mem_cons.1 hd with rfl | hd'
        · exact ⟨rfl, rfl⟩
        · exact h2 d hd'
    · refine ⟨[], ?_, by simp⟩
      simp only [Run.done.injEq] at h
      rw [← h]; simp

/-- Whatever the grid loop appends carries the start and end text it was given. -/
theorem grid_appends : ∀ (fuel : Nat) (frame : Frame) (B : Int) (s e : String) (y : Int)
    (out recs : List Dialogue), grid fuel frame B s e y out = Run.done recs →
    ∃ new, recs = out ++ new ∧ ∀ d ∈ new, d.start_time_str = s ∧ d.end_time_str = e := by
  intro fuel
  induction fuel with
  | zero => intro frame B s e y out recs h; simp [grid] at h
  | succ k ih =>
    intro frame B s e y out recs h
    simp only [grid] at h
    split_ifs at h with hy
    · cases hrow : grid_row k frame B s e y 0 out with
      | done out1 =>
        rw [hrow] at h
        simp only at h
        obtain ⟨new1, a1, a2⟩ := grid_row_appends k frame B s e y 0 out out1 hrow
        obtain ⟨new2, b1, b2⟩ := ih frame B s e _ out1 recs h
        refine ⟨new1 ++ new2, by rw [b1, a1]; simp, ?_⟩
        intro d hd
        rcases List.mem_append.1 hd with h1 | h1
        · exact a2 d h1
        · exact b2 d h1
      | undefined_read => rw [hrow] at h; simp at h
      | out_of_fuel => rw [hrow] at h; simp at h
    · refine ⟨[], ?_, by simp⟩
      simp only [Run.done.injEq] at h
      rw [← h]; simp

/-- C12: when the conversion loop renders frame `f` (`f mod I = 0`, the frame is not
empty), every record appended while compiling that frame carries the start text
`format_time (f / fps)` and the end text `format_time ((f + I) / fps)`; for a block size
above 25 the compilation ends; and for `fps > 0`, `I > 0` the end time is not earlier than
the start time. -/
theorem records_share_window (packets : List Packet) (v : Int) (W H ls : Nat)
    (r : VideoReader) (hr : (VideoReader.fresh packets v W H ls).Reachable r)
    (B I : Int) (fps : ℚ) (f : Int) (out : Output)
    (hI : 0 < I) (hfps : 0 < fps) (hf : 0 ≤ f) (hmod : f % I = 0)
    (hne : (r.get_frame f).1.pixels ≠ []) :
    (∀ (fuel : Nat) (file1 : List Dialogue),
      grid fuel (r.get_frame f).1 B (format_time ((f : ℚ) / fps))
          (format_time (((f + I : Int) : ℚ) / fps)) 0 out.file = Run.done file1 →
        main_loop (fuel + 1) r B I fps f out
          = main_loop fuel (r.get_frame f).2 B I fps (f + 1) ⟨out.processed ++ [f], file1⟩ ∧
        ∃ new, file1 = out.file ++ new ∧
          ∀ d ∈ new, d.start_time_str = format_time ((f : ℚ) / fps) ∧
            d.end_time_str = format_time (((f + I : Int) : ℚ) / fps)) ∧
    (25 < B → ∃ F : Nat, ∀ fuel : Nat, F ≤ fuel →
      ∃ file1, grid fuel (r.get_frame f).1 B (format_time ((f : ℚ) / fps))
        (format_time (((f + I : Int) : ℚ) / fps)) 0 out.file = Run.done file1) ∧
    (f : ℚ) / fps ≤ ((f + I : Int) : ℚ) / fps := by
  refine ⟨fun fuel file1 hg => ⟨?_, grid_appends _ _ _ _ _ _ _ _ hg⟩, fun hB => ?_, ?_⟩
  · have htm : Int.tmod f I = 0 := by rw [Int.tmod_eq_emod hf hI.le]; exact hmod
    have hemp : (r.get_frame f).1.pixels.isEmpty = false := by
      cases hp : (r.get_frame f).1.pixels with
      | nil => exact absurd hp hne
      | cons a as => rfl
    rcases hgf : r.get_frame f with ⟨frame, r1⟩
    rw [hgf] at hemp hg
    simp only at hemp hg
    simp only [main_loop, hgf, hemp, htm, hg]
    simp
  · obtain ⟨hInv, hopen, hsame⟩ := reachable_spec packets v W H ls r hr
    obtain ⟨s1, s2, s3, s4⟩ := get_frame_size r W H f hopen hInv hsame.2.2.2.1 hsame.2.2.2.2.1
    have hlen : ((r.get_frame f).1.pixels.length : Int)
        = (r.get_frame f).1.width * (r.get_frame f).1.height := by
      by_cases hn : f < (r.decodable.length : Int)
      · rw [s3 hn, s1, s2]; push_cast; rfl
      · exact absurd (s4 (by omega)) hne
    exact ⟨_, fun fuel hfu => ⟨_, grid_done _ B _ _ hlen hB out.file fuel hfu⟩⟩
  · apply div_le_div_of_nonneg_right _ hfps.le
    push_cast
    have : (0 : ℚ) < (I : ℚ) := by exact_mod_cast hI
    linarith

/-- C12 on the sample stream at frame 2 with `I = 2` and 25 frames per second: the records
of the frame carry the window `0:00:00.08` to `0:00:00.16`. -/
theorem records_share_window_witness :
    (sample_reader.get_frame 2).1.pixels ≠ [] ∧
    ∃ F : Nat, ∀ fuel : Nat, F ≤ fuel →
      ∃ new, main_loop (fuel + 1) sample_reader 40 2 25 2 ⟨[0], []⟩
          = main_loop fuel (sample_reader.get_frame 2).2 40 2 25 (2 + 1) ⟨[0] ++ [2], new⟩ ∧
        ∀ d ∈ new, d.start_time_str = "0:00:00.08" ∧ d.end_time_str = "0:00:00.16" := by
  obtain ⟨h1, h2, _⟩ := records_share_window
    [sample_other, sample_packet 1, sample_other, sample_packet 2, sample_packet 3] 0 2 2 6
    sample_reader VideoReader.Reachable.start 40 2 25 2 ⟨[0], []⟩ (by decide) (by norm_num)
    (by decide) (by decide) (by decide)
  have t1 : format_time (((2 : Int) : ℚ) / 25) = "0:00:00.08" := by
    rw [format_time_centis _ (by norm_num)]
    have : ⌊(100 : ℚ) * (((2 : Int) : ℚ) / 25)⌋ = 8 := by norm_num [Int.floor_eq_iff]
    rw [this]; decide
  have t2 : format_time ((((2 : Int) + 2 : Int) : ℚ) / 25) = "0:00:00.16" := by
    rw [format_time_centis _ (by norm_num)]
    have : ⌊(100 : ℚ) * ((((2 : Int) + 2 : Int) : ℚ) / 25)⌋ = 16 := by
      norm_num [Int.floor_eq_iff]
    rw [this]; decide
  rw [t1, t2] at h1
  obtain ⟨F, hF⟩ := h2 (by decide)
  refine ⟨by decide, F, fun fuel hf => ?_⟩
  obtain ⟨file1, hg⟩ := hF fuel hf
  rw [t1, t2] at hg
  obtain ⟨a1, new, a2, a3⟩ := h1 fuel file1 hg
  rw [List.nil_append] at a2
  subst a2
  exact ⟨_, a1, a3⟩



/-! ## The number of decode steps -/

theorem run_append : ∀ (l1 l2 : List Int) (r : VideoReader),
    r.run (l1 ++ l2)
      = ((r.run l1).1 ++ ((r.run l1).2.run l2).1, ((r.run l1).2.run l2).2) := by
  intro l1
  induction l1 with
  | nil => intro l2 r; rfl
  | cons n ns ih =>
    intro l2 r
    rw [List.cons_append, run_cons, run_cons, ih]
    rfl

/-- The state of a fresh reader after the requests `0, 1, ..., k - 1`, for `k` at most the
number of decodable frames: the frame counter is `k`. -/
theorem run_range_spec (packets : List Packet) (v : Int) (W H ls : Nat) :
    ∀ k : Nat, k ≤ (VideoReader.fresh packets v W H ls).decodable.length →
      (VideoReader.fresh packets v W H ls).Reachable
        ((VideoReader.fresh packets v W H ls).run
          ((List.range k).map (fun j : Nat => (j : Int)))).2 ∧
      ((VideoReader.fresh packets v W H ls).run
          ((List.range k).map (fun j : Nat => (j : Int)))).2.current_frame_num = (k : Int) := by
  intro k
  induction k with
  | zero => intro _; exact ⟨VideoReader.Reachable.start, rfl⟩
  | succ k ih =>
    intro hk
    obtain ⟨h1, h2⟩ := ih (by omega)
    obtain ⟨hI, hopen, hsame⟩ := reachable_spec packets v W H ls _ h1
    have hdec := same_stream_decodable hsame
    rw [List.range_succ, List.map_append, run_append]
    simp only [List.map_cons, List.map_nil]
    have hstep : ∀ r : VideoReader, (r.run [(k : Int)]).2 = (r.get_frame (k : Int)).2 :=
      fun r => rfl
    rw [hstep]
    refine ⟨VideoReader.Reachable.call _ h1, ?_⟩
    obtain ⟨_, _, _, _, _, g6, _⟩ := get_frame_spec _ (k : Int) hopen hI
    rw [(g6 (Int.natCast_nonneg k) (by rw [hdec]; exact_mod_cast hk)).1]
    push_cast; rfl

/-- C15: in a reachable state with `current_frame_num = c`, a forward request `n ≥ c` on a
stream with more than `n` decodable frames makes `get_frame n` perform exactly
`n - c + 1` successful `decode_next_frame` steps and no seek; consequently each call of the
request sequence `0, 1, 2, ...` of the conversion loop performs exactly one successful
decode. -/
theorem forward_request_decodes (packets : List Packet) (v : Int) (W H ls : Nat)
    (r : VideoReader) (hr : (VideoReader.fresh packets v W H ls).Reachable r) (n : Int)
    (hc : r.current_frame_num ≤ n)
    (hn : n < ((VideoReader.fresh packets v W H ls).decodable.length : Int)) :
    (r.get_frame n).2.decodes = r.decodes + (n - r.current_frame_num + 1).toNat ∧
    (r.get_frame n).2.seeks = r.seeks ∧
    ∀ k : Nat, k < (VideoReader.fresh packets v W H ls).decodable.length →
      (((VideoReader.fresh packets v W H ls).run
          ((List.range k).map (fun j : Nat => (j : Int)))).2.get_frame (k : Int)).2.decodes
        = ((VideoReader.fresh packets v W H ls).run
          ((List.range k).map (fun j : Nat => (j : Int)))).2.decodes + 1 := by
  have key : ∀ (r : VideoReader), (VideoReader.fresh packets v W H ls).Reachable r →
      ∀ n : Int, r.current_frame_num ≤ n →
      n < ((VideoReader.fresh packets v W H ls).decodable.length : Int) →
      (r.get_frame n).2.decodes = r.decodes + (n - r.current_frame_num + 1).toNat ∧
      (r.get_frame n).2.seeks = r.seeks := by
    intro r hr n hc hn
    obtain ⟨hI, hopen, hsame⟩ := reachable_spec packets v W H ls r hr
    have hdec := same_stream_decodable hsame
    obtain ⟨_, _, _, _, g5, _, _, _, g9⟩ := get_frame_spec r n hopen hI
    refine ⟨?_, ?_⟩
    · rw [g9 hc (by rw [hdec]; exact hn)]
      congr 2; ring
    · rw [g5, if_neg (by omega)]
  refine ⟨(key r hr n hc hn).1, (key r hr n hc hn).2, fun k hk => ?_⟩
  obtain ⟨h1, h2⟩ := run_range_spec packets v W H ls k (by omega)
  have := (key _ h1 (k : Int) (by rw [h2]) (by exact_mod_cast hk)).1
  rw [this, h2]
  simp

/-- C15 on the sample stream: after `get_frame 0` the counter is 1, and `get_frame 2`
performs two successful decodes and no seek. -/
theorem forward_request_decodes_witness :
    ((sample_reader.get_frame 0).2.get_frame 2).2.decodes
      = (sample_reader.get_frame 0).2.decodes + 2 ∧
    ((sample_reader.get_frame 0).2.get_frame 2).2.seeks = (sample_reader.get_frame 0).2.seeks := by
  obtain ⟨h1, h2, _⟩ := forward_request_decodes
    [sample_other, sample_packet 1, sample_other, sample_packet 2, sample_packet 3] 0 2 2 6
    (sample_reader.get_frame 0).2 (VideoReader.Reachable.call 0 VideoReader.Reachable.start)
    2 (by decide) (by decide)
  exact ⟨h1, h2⟩



/-! ## Termination of the grid loops -/

/-- At a column `x ≤ 0` of a row inside the canvas `get_pixel` returns a colour: black left
of the canvas, the stored pixel at `x = 0`. -/
theorem get_pixel_some_of_nonpos (frame : Frame) (x y : Int)
    (hW : 0 < frame.width) (hlen : (frame.pixels.length : Int) = frame.width * frame.height)
    (hy0 : 0 ≤ y) (hy1 : y < frame.height) (hx : x ≤ 0) :
    ∃ p, frame.get_pixel x y = some p := by
  by_cases h0 : x < 0
  · refine ⟨⟨0, 0, 0⟩, ?_⟩
    unfold Frame.get_pixel
    rw [if_pos (Or.inl h0)]
  · have hx0 : x = 0 := by omega
    subst hx0
    obtain ⟨_, hp⟩ := get_pixel_inside frame 0 y hlen (le_refl _) hW hy0 hy1
    exact ⟨_, hp⟩

/-- With a block size of at most 25 the row loop, started at a column `x ≤ 0`, does not end
within any number of steps. -/
theorem grid_row_diverges (frame : Frame) (B : Int) (s e : String) (y : Int)
    (hW : 0 < frame.width) (hlen : (frame.pixels.length : Int) = frame.width * frame.height)
    (hy0 : 0 ≤ y) (hy1 : y < frame.height) (hB : B ≤ 25) :
    ∀ (fuel : Nat) (x : Int) (out : List Dialogue), x ≤ 0 →
      grid_row fuel frame B s e y x out = Run.out_of_fuel := by
  intro fuel
  induction fuel with
  | zero => intro x out _; rfl
  | succ k ih =>
    intro x out hx
    obtain ⟨p, hp⟩ := get_pixel_some_of_nonpos frame x y hW hlen hy0 hy1 hx
    simp only [grid_row, if_pos (show x < frame.width by omega), hp]
    exact ih _ _ (by omega)

/-- With a block size of at most 25 the row loop keeps emitting: after `k` further steps it
is at column `x + k * (B - 25)` with `k` more records. -/
theorem grid_row_unroll (frame : Frame) (B : Int) (s e : String) (y : Int)
    (hW : 0 < frame.width) (hlen : (frame.pixels.length : Int) = frame.width * frame.height)
    (hy0 : 0 ≤ y) (hy1 : y < frame.height) (hB : B ≤ 25) :
    ∀ (k : Nat) (x : Int) (out : List Dialogue), x ≤ 0 →
      ∃ recs : List Dialogue, recs.length = k ∧ ∀ fuel : Nat,
        grid_row (fuel + k) frame B s e y x out
          = grid_row fuel frame B s e y (x + (k : Int) * (B - 25)) (out ++ recs) := by
  intro k
  induction k with
  | zero => intro x out _; exact ⟨[], rfl, fun fuel => by simp⟩
  | succ k ih =>
    intro x out hx
    obtain ⟨p, hp⟩ := get_pixel_some_of_nonpos frame x y hW hlen hy0 hy1 hx
    obtain ⟨recs, h1, h2⟩ := ih (x + (B - 25)) (out ++ [⟨s, e, x, y, p⟩]) (by omega)
    refine ⟨⟨s, e, x, y, p⟩ :: recs, by simp [h1], fun fuel => ?_⟩
    have hstep : grid_row (fuel + (k + 1)) frame B s e y x out
        = grid_row (fuel + k) frame B s e y (x + (B - 25)) (out ++ [⟨s, e, x, y, p⟩]) := by
      rw [← Nat.add_assoc]
      simp only [grid_row, if_pos (show x < frame.width by omega), hp]
    rw [hstep, h2 fuel]
    congr 1
    · push_cast; ring
    · simp

/-- C16: for a frame of positive width and height that holds `width * height` pixels
(machine-integer overflow aside), the grid loops of one frame's compilation end within some
number of steps exactly when the block size is above 25; for every block size `B ≤ 25` the
stride `B - 25` is not positive, the column `x = k * (B - 25)` stays below the width for
every `k`, and the row loop of the first row emits a record at every step without ever
ending. -/
theorem grid_terminates_iff (frame : Frame) (B : Int) (s e : String) (out : List Dialogue)
    (hW : 0 < frame.width) (hH : 0 < frame.height)
    (hlen : (frame.pixels.length : Int) = frame.width * frame.height) :
    ((∃ (fuel : Nat) (recs : List Dialogue), grid fuel frame B s e 0 out = Run.done recs)
      ↔ 25 < B) ∧
    (B ≤ 25 →
      B - 25 ≤ 0 ∧
      (∀ fuel : Nat, grid fuel frame B s e 0 out = Run.out_of_fuel) ∧
      (∀ fuel : Nat, grid_row fuel frame B s e 0 0 out = Run.out_of_fuel) ∧
      ∀ k : Nat, (k : Int) * (B - 25) < frame.width ∧
        ∃ recs : List Dialogue, recs.length = k ∧ ∀ fuel : Nat,
          grid_row (fuel + k) frame B s e 0 0 out
            = grid_row fuel frame B s e 0 ((k : Int) * (B - 25)) (out ++ recs)) := by
  have hdiv : B ≤ 25 → ∀ fuel : Nat, grid fuel frame B s e 0 out = Run.out_of_fuel := by
    intro hB fuel
    cases fuel with
    | zero => rfl
    | succ k =>
      simp only [grid, if_pos hH,
        grid_row_diverges frame B s e 0 hW hlen (le_refl _) hH hB k 0 out (le_refl _)]
  refine ⟨⟨?_, fun hB => ⟨_, _, grid_done frame B s e hlen hB out _ (le_refl _)⟩⟩, fun hB =>
    ⟨by omega, hdiv hB, fun fuel =>
      grid_row_diverges frame B s e 0 hW hlen (le_refl _) hH hB fuel 0 out (le_refl _),
     fun k => ⟨?_, ?_⟩⟩⟩
  · rintro ⟨fuel, recs, h⟩
    by_contra hB
    rw [hdiv (by omega) fuel] at h
    exact absurd h (by simp)
  · have : (k : Int) * (B - 25) ≤ 0 :=
      mul_nonpos_of_nonneg_of_nonpos (Int.natCast_nonneg k) (by omega)
    omega
  · obtain ⟨recs, h1, h2⟩ :=
      grid_row_unroll frame B s e 0 hW hlen (le_refl _) hH hB k 0 out (le_refl _)
    refine ⟨recs, h1, fun fuel => ?_⟩
    rw [h2 fuel, zero_add]

/-- C16 on the first 2 x 2 picture of the sample stream: the grid loops end for `B = 40`
and do not end for `B = 25`. -/
theorem grid_terminates_iff_witness :
    (∃ (fuel : Nat) (recs : List Dialogue),
      grid fuel (sample_reader.decoded_frame 0) 40 "a" "b" 0 [] = Run.done recs) ∧
    ∀ fuel : Nat, grid fuel (sample_reader.decoded_frame 0) 25 "a" "b" 0 [] = Run.out_of_fuel :=
  ⟨(grid_terminates_iff (sample_reader.decoded_frame 0) 40 "a" "b" [] (by decide) (by decide)
      (by decide)).1.2 (by decide),
   ((grid_terminates_iff (sample_reader.decoded_frame 0) 25 "a" "b" [] (by decide) (by decide)
      (by decide)).2 (by decide)).2.1⟩



/-! ## Monotonicity of the time code -/

/-- The fields of `format_time t` in terms of the whole number of centiseconds in `t`. -/
theorem time_fields_centis (t : ℚ) (ht : 0 ≤ t) :
    time_fields t = (⌊100 * t⌋ / 360000, ⌊100 * t⌋ / 6000 % 60, ⌊100 * t⌋ / 100 % 60,
      ⌊100 * t⌋ % 100) := by
  rw [time_fields_eq t ht]
  have e1 : ⌊t⌋ = ⌊100 * t⌋ / 100 := by
    have := floor_div_nat (100 * t) 100 (by norm_num)
    simp only [Nat.cast_ofNat] at this
    rw [← this]; congr 1; ring
  have e2 : ⌊t / 60⌋ = ⌊100 * t⌋ / 6000 := by
    have := floor_div_nat (100 * t) 6000 (by norm_num)
    simp only [Nat.cast_ofNat] at this
    rw [← this]; congr 1; ring
  have e3 : ⌊t / 3600⌋ = ⌊100 * t⌋ / 360000 := by
    have := floor_div_nat (100 * t) 360000 (by norm_num)
    simp only [Nat.cast_ofNat] at this
    rw [← this]; congr 1; ring
  rw [e1, e2, e3]

/-- The field tuple grows lexicographically with the number of centiseconds. -/
theorem fields_le_of_centis_le (A B : Int) (hAB : A ≤ B) :
    fields_le (A / 360000, A / 6000 % 60, A / 100 % 60, A % 100)
      (B / 360000, B / 6000 % 60, B / 100 % 60, B % 100) := by
  unfold fields_le
  simp only
  omega

/-- C18: over exact rationals `0 ≤ a ≤ b` the field tuple `(H, MM, SS, CC)` that
`format_time` computes for `a` is lexicographically at most the one for `b`; when
`b - a ≥ 1/100` the two texts differ; hence a record window with `I / fps ≥ 0.01` never has
identical start and end texts. -/
theorem format_time_monotone (a b : ℚ) (ha : 0 ≤ a) (hab : a ≤ b) :
    fields_le (time_fields a) (time_fields b) ∧
    (1 / 100 ≤ b - a → format_time a ≠ format_time b) ∧
    ∀ (f I : Int) (fps : ℚ), 0 ≤ f → 0 < fps → 1 / 100 ≤ (I : ℚ) / fps →
      format_time ((f : ℚ) / fps) ≠ format_time (((f + I : Int) : ℚ) / fps) := by
  have hb : 0 ≤ b := le_trans ha hab
  have hmono : ⌊100 * a⌋ ≤ ⌊100 * b⌋ := Int.floor_mono (by linarith)
  have key : ∀ x y : ℚ, 0 ≤ x → 1 / 100 ≤ y - x → format_time x ≠ format_time y := by
    intro x y hx hxy
    have hy : 0 ≤ y := by linarith
    rw [Ne, format_time_eq_iff x y hx hy]
    have h1 : ⌊100 * x⌋ + 1 ≤ ⌊100 * y⌋ := by
      rw [← Int.floor_add_one]
      exact Int.floor_mono (by linarith)
    omega
  refine ⟨?_, key a b ha, fun f I fps hf hfps hI => ?_⟩
  · rw [time_fields_centis a ha, time_fields_centis b hb]
    exact fields_le_of_centis_le _ _ hmono
  · apply key
    · have : (0 : ℚ) ≤ (f : ℚ) := by exact_mod_cast hf
      positivity
    · have : ((f + I : Int) : ℚ) / fps - (f : ℚ) / fps = (I : ℚ) / fps := by
        push_cast; ring
      rw [this]; exact hI

/-- C18 at `a = 59`, `b = 60` (the seconds field falls, the minutes field rises) and for
the window of frame 3 with `I = 1` at 25 frames per second. -/
theorem format_time_monotone_witness :
    (0 : ℚ) ≤ 59 ∧ (59 : ℚ) ≤ 60 ∧
    fields_le (time_fields 59) (time_fields 60) ∧ format_time 59 ≠ format_time 60 ∧
    format_time (((3 : Int) : ℚ) / 25) ≠ format_time ((((3 : Int) + 1 : Int) : ℚ) / 25) := by
  obtain ⟨h1, h2, h3⟩ := format_time_monotone 59 60 (by norm_num) (by norm_num)
  exact ⟨by norm_num, by norm_num, h1, h2 (by norm_num),
    h3 3 1 25 (by decide) (by norm_num) (by norm_num)⟩


end ReadFrame
